import Mathlib

set_option maxRecDepth 10000
set_option synthInstance.maxSize 2000

/-!
Verification of the result-materialization, grid-alignment and query-cache
engine of `scaleops/promqlpandas.py` (class `Prometheus` and its helper
functions), via a shallow embedding in Lean.

Modelling conventions:
* Python floats are idealized as rationals (`ℚ`); IEEE NaN used by the source
  as the missing-value sentinel is represented by `Option ℚ` with `none`
  standing for the NaN fill of a freshly allocated buffer cell.
* Sample values arrive in the source as strings and are parsed with `float`;
  that one-shot parsing helper is outside the specified core, so samples carry
  their parsed numeric value directly.
* Python dicts (label sets, cache directories) are association lists whose
  operations preserve the first occurrence of a key, mirroring dict-key
  uniqueness of the source.
* Exceptions are modelled with `Except Err`; each constructor of `Err` names
  the failure that the corresponding `raise` (or library error) produces.
* The filesystem holding the cache is `Option` of a directory listing:
  `none` means the cache directory does not exist.
* The network transport (`requests`) is an external collaborator: the decoded
  `data.result` payload of a range query is passed to `queryRange` as an
  `Except Err (List SeriesM)` parameter, and "the transport was not
  contacted" is expressed as invariance of the result in that parameter.
-/

/-- Failure modes of the embedded operations, one per `raise` site or
library exception of the source. -/
inductive Err where
  | typeError
  | invalidDurationFormat
  | invalidTimestampType
  | timestampParseError
  | emptyLabelSpace
  | indexError
  | unpackError
  | fileNotFound
  deriving DecidableEq, Repr

/-- Decidable equality of `Except` values, with a decision procedure the
kernel evaluates directly. -/
def exceptDecEq {ε α : Type} [DecidableEq ε] [DecidableEq α] :
    DecidableEq (Except ε α) := fun a b =>
  match a, b with
  | .ok x, .ok y =>
    if h : x = y then .isTrue (by rw [h]) else .isFalse (fun hc => by cases hc; exact h rfl)
  | .error x, .error y =>
    if h : x = y then .isTrue (by rw [h]) else .isFalse (fun hc => by cases hc; exact h rfl)
  | .ok _, .error _ => .isFalse (fun hc => by cases hc)
  | .error _, .ok _ => .isFalse (fun hc => by cases hc)

instance {ε α : Type} [DecidableEq ε] [DecidableEq α] : DecidableEq (Except ε α) :=
  exceptDecEq

/-- Rational division written through `Rat.divInt` so that the kernel can
evaluate it on concrete inputs (the `Inv`-based field division of `ℚ` goes
through the irreducible `Rat.inv`).  `qdiv_eq` proves it IS ordinary
division. -/
def qdiv (a b : ℚ) : ℚ := Rat.divInt (a.num * b.den) (a.den * b.num)

theorem qdiv_eq (a b : ℚ) : qdiv a b = a / b := by
  unfold qdiv
  rcases eq_or_ne b 0 with hb | hb
  · subst hb
    simp
  · have hbn : b.num ≠ 0 := Rat.num_ne_zero.mpr hb
    have hbnq : (b.num : ℚ) ≠ 0 := Int.cast_ne_zero.mpr hbn
    have hadq : ((a.den : ℚ)) ≠ 0 := Nat.cast_ne_zero.mpr a.den_nz
    have hbdq : ((b.den : ℚ)) ≠ 0 := Nat.cast_ne_zero.mpr b.den_nz
    have ha : (a.num : ℚ) = a * (a.den : ℚ) := by
      have h := Rat.num_div_den a
      rwa [div_eq_iff hadq] at h
    have hb2 : (b.num : ℚ) = b * (b.den : ℚ) := by
      have h := Rat.num_div_den b
      rwa [div_eq_iff hbdq] at h
    rw [Rat.divInt_eq_div]
    push_cast
    rw [div_eq_div_iff (mul_ne_zero hadq hbnq) hb, ha, hb2]
    ring

/-- One half, written so that the kernel can evaluate it. -/
def qhalf : ℚ := mkRat 1 2

theorem qhalf_eq : qhalf = 1/2 := by
  unfold qhalf
  rw [Rat.mkRat_eq_div]
  norm_num

/-- Round a rational to the nearest integer, ties to the nearest even
integer.  This is the semantics shared by Python `round` on a float and
NumPy `np.rint`.  (`q.num / q.den` is the floor of `q`, written without the
`Int.floor` wrapper so that the kernel can evaluate it.) -/
def roundHalfEven (q : ℚ) : ℤ :=
  let f : ℤ := q.num / q.den
  let r : ℚ := q - f
  if r < qhalf then f
  else if qhalf < r then f + 1
  else if f % 2 = 0 then f else f + 1

theorem roundHalfEven_floor_form (q : ℚ) :
    roundHalfEven q =
      if q - ⌊q⌋ < 1/2 then ⌊q⌋
      else if 1/2 < q - ⌊q⌋ then ⌊q⌋ + 1
      else if ⌊q⌋ % 2 = 0 then ⌊q⌋ else ⌊q⌋ + 1 := by
  simp only [roundHalfEven, Rat.floor_def, qhalf_eq]

/-! ### Python dict operations on association lists -/

/-- A Python dict of string keys and values of type `β`. -/
abbrev PyDict (β : Type) := List (String × β)

/-- A label set: dict of label name to label value. -/
abbrev Dict := PyDict String

/-- `m.get(k)` / `m[k]`: value at the first occurrence of key `k`. -/
def dGet {β : Type} (m : PyDict β) (k : String) : Option β :=
  (m.find? (fun p => p.1 == k)).map Prod.snd

/-- `m[k] = v`: overwrite the existing entry for `k` in place, or append a
fresh entry at the end, as a Python dict does. -/
def dInsert {β : Type} (m : PyDict β) (k : String) (v : β) : PyDict β :=
  if m.any (fun p => p.1 == k) then
    m.map (fun p => if p.1 == k then (k, v) else p)
  else m ++ [(k, v)]

/-- `m.keys()` as a list (Python iterates dict keys in insertion order; all
uses in the source are order-insensitive). -/
def dlKeys {β : Type} (m : PyDict β) : List String := m.map Prod.fst

/-! ### Label Index Builder (`_metric_index`, `_merge_metric_labels`) -/

/-- Source lines 285-286: `if '__name__' in m.keys(): m['metric_name'] =
m.pop('__name__')` — remove the reserved key and store its value under
`metric_name`. -/
def remapName (m : Dict) : Dict :=
  match dGet m "__name__" with
  | none => m
  | some v => dInsert (m.filter (fun p => p.1 != "__name__")) "metric_name" v

/-- Python `\x7b**m, **labels\x7d`: a copy of `m` updated with every entry of
`labels`, later entries overriding same-named keys. -/
def mergeOne (labels : Dict) (m : Dict) : Dict :=
  labels.foldl (fun acc p => dInsert acc p.1 p.2) m

/-- Source `_merge_metric_labels` (lines 300-304): merge extra labels into
every metric dict; `if labels:` is false for `None` and for an empty dict. -/
def mergeMetricLabels (metrics : List Dict) (labels : Dict) : List Dict :=
  if labels.isEmpty then metrics else metrics.map (mergeOne labels)

/-- Apply the reserved-name remap to every metric dict (done inside the
level-collection loop of `_metric_index`). -/
def remapAll (ms : List Dict) : List Dict := ms.map remapName

/-- Python `sorted` on strings: code-point lexicographic sort. -/
def sortStrings (l : List String) : List String :=
  l.mergeSort (fun a b => decide (a ≤ b))

/-- `levels`: the sorted union of all key names across the metric dicts
(`levels |= set(m.keys())` in a loop, then `sorted(list(levels))`). -/
def levelsOf (ms : List Dict) : List String :=
  sortStrings ((ms.flatMap dlKeys).dedup)

/-- Source `_metric_index` (lines 279-297): merge extra labels, remap the
reserved key, compute sorted levels, fail if there are none, and build one
tuple per series with `m.get(level, None)` at each level position. -/
def metricIndex (metrics : List Dict) (labels : Dict) :
    Except Err (List String × List (List (Option String))) :=
  if (levelsOf (remapAll (mergeMetricLabels metrics labels))).isEmpty then
    .error .emptyLabelSpace
  else
    .ok (levelsOf (remapAll (mergeMetricLabels metrics labels)),
      (remapAll (mergeMetricLabels metrics labels)).map
        (fun m => (levelsOf (remapAll (mergeMetricLabels metrics labels))).map
          (fun lv => dGet m lv)))

/-! ### Materializers (`_vector_to_numpy`, `_matrix_to_numpy`) -/

/-- One series of an instant-query (vector) result: label set plus the
parsed value of `t['value'][1]`. -/
structure SeriesV where
  metric : Dict
  value : ℚ
  deriving DecidableEq

/-- One series of a range-query (matrix) result: label set plus the ordered
raw samples `(timestamp, parsed value)` of `t['values']`. -/
structure SeriesM where
  metric : Dict
  values : List (ℚ × ℚ)
  deriving DecidableEq

/-- The inclusive-end epsilon of the source: `np.arange(start, end + 1e-6,
step)`. -/
def gridEps : ℚ := mkRat 1 1000000

theorem gridEps_eq : gridEps = 1/1000000 := by
  unfold gridEps
  rw [Rat.mkRat_eq_div]
  norm_num

/-- The ceiling of a rational, written through integer floor division so
that the kernel can evaluate it; `qceil_eq` identifies it with `Int.ceil`. -/
def qceil (q : ℚ) : ℤ := -((-q).num / (-q).den)

theorem qceil_eq (q : ℚ) : qceil q = ⌈q⌉ := by
  unfold qceil
  rw [← Rat.floor_def, Int.floor_neg, neg_neg]

/-- The time grid `np.arange(start, end + 1e-6, step)`: points
`start + i*step` for `i < ceil((end + 1e-6 - start)/step)` (empty when the
count is nonpositive; `step` is assumed positive as in the source). -/
def gridTimes (start stop step : ℚ) : List ℚ :=
  (List.range (qceil (qdiv (stop + gridEps - start) step)).toNat).map
    (fun i => start + (i : ℚ) * step)

/-- NumPy index normalization on an axis of length `n`: a negative index `i`
with `-n ≤ i` addresses position `n + i`. -/
def normIdx (n : ℕ) (i : ℤ) : ℕ := (if i < 0 then i + n else i).toNat

/-- Sequential element assignment of `data[ii, inds] = values`: later writes
to the same position win. -/
def applyWrites (row : List (Option ℚ)) (ws : List (ℕ × ℚ)) : List (Option ℚ) :=
  ws.foldl (fun r w => r.set w.1 (some w.2)) row

/-- NumPy fancy-index assignment `data[ii, inds] = values` on a row of
length `n`: every index must lie in `[-n, n)` (otherwise `IndexError`),
negative indices wrap, and the writes are applied in order. -/
def writeSlots (n : ℕ) (ws : List (ℤ × ℚ)) : Except Err (List (Option ℚ)) :=
  if ws.all (fun w => decide (-(n : ℤ) ≤ w.1) && decide (w.1 < (n : ℤ))) then
    .ok (applyWrites (List.replicate n none) (ws.map (fun w => (normIdx n w.1, w.2))))
  else .error .indexError

/-- The body of the per-series loop of `_matrix_to_numpy` (lines 245-261):
unpack the samples (`zip(*t['values'])` fails on an empty list), compute
`inds = np.rint((times - start) / step)` and assign the values into the
NaN-filled row. -/
def perSeriesM (start step : ℚ) (n : ℕ) (t : SeriesM) :
    Except Err (Dict × List (Option ℚ)) :=
  if t.values.isEmpty then .error .unpackError
  else
    match writeSlots n (t.values.map
        (fun s => (roundHalfEven (qdiv (s.1 - start) step), s.2))) with
    | .error e => .error e
    | .ok row => .ok (t.metric, row)

/-- The `for ii, t in enumerate(results)` loop: process each series in order,
propagating the first failure. -/
def seqSeries {α β : Type} (g : α → Except Err β) : List α → Except Err (List β)
  | [] => .ok []
  | x :: xs =>
    match g x with
    | .error e => .error e
    | .ok y =>
      match seqSeries g xs with
      | .error e => .error e
      | .ok ys => .ok (y :: ys)

/-- Source `_matrix_to_numpy` (lines 229-263): build the time grid, then per
series scatter the samples into a NaN-filled row at slot
`rint((t - start)/step)`.  Returns the list of (label set, row) pairs —
row `ii` of the `data` array carries series `ii` — plus the grid. -/
def matrixToNumpy (results : List SeriesM) (start stop step : ℚ) :
    Except Err (List (Dict × List (Option ℚ)) × List ℚ) :=
  match seqSeries (perSeriesM start step (gridTimes start stop step).length) results with
  | .error e => .error e
  | .ok rows => .ok (rows, gridTimes start stop step)

/-- Source `_vector_to_numpy` (lines 206-227): one parsed value per series,
in input order, plus the parallel metric list. -/
def vectorToNumpy (results : List SeriesV) : List ℚ × List Dict :=
  (results.map SeriesV.value, results.map SeriesV.metric)

/-! ### Tables and the sort comparator (`_to_pandas`) -/

/-- The matrix result table: a DataFrame with the composite index `levels` /
`colKeys` on the column axis, one column (stored here as the per-series list
`data`) per series, and the time grid as row index. -/
structure Frame where
  levels : List String
  colKeys : List (List (Option String))
  data : List (List (Option ℚ))
  times : List ℚ
  deriving DecidableEq

/-- The vector result table: a Series indexed by the composite label keys. -/
structure VFrame where
  levels : List String
  keys : List (List (Option String))
  data : List ℚ
  deriving DecidableEq

/-- Python `sorted(results, key=lambda r: sort(r['metric']))`: stable sort by
a projection into a totally ordered key type. -/
def sortByKey {α κ : Type} [LinearOrder κ] (key : α → κ) (l : List α) : List α :=
  l.mergeSort (fun a b => decide (key a ≤ key b))

/-- The optional pre-sort of the series records (`sorted(results['result'],
key=...)` at lines 188-191). -/
def applySortM {κ : Type} [LinearOrder κ] (sortKey : Option (Dict → κ))
    (results : List SeriesM) : List SeriesM :=
  match sortKey with
  | some f => sortByKey (fun t => f t.metric) results
  | none => results

/-- The instant-path sort (`sorted(results, key=...)` at lines 96-97).
`results` there is `_do_query`'s return value (line 93), which is
`response['data']` — the dict `{'resultType': ..., 'result': [...]}`,
NOT the series list.  `sorted` over a dict iterates its string keys, so
`r['metric']` raises `TypeError` for every comparator: the sort never
succeeds, and with no comparator the dict is passed on untouched. -/
def applySortV {κ : Type} [LinearOrder κ] (sortKey : Option (Dict → κ))
    (results : List SeriesV) : Except Err (List SeriesV) :=
  match sortKey with
  | some _ => .error .typeError
  | none => .ok results

/-- The matrix branch of `_to_pandas` (lines 179-198) as called by
`query_range`: optionally pre-sort the series records, materialize, then
build the composite index with the extra labels. -/
def toPandasMatrix {κ : Type} [LinearOrder κ] (results : List SeriesM)
    (start stop step : ℚ) (sortKey : Option (Dict → κ)) (labels : Dict) :
    Except Err Frame :=
  match matrixToNumpy (applySortM sortKey results) start stop step with
  | .error e => .error e
  | .ok (rows, times) =>
    match metricIndex (rows.map Prod.fst) labels with
    | .error e => .error e
    | .ok (levels, tuples) => .ok ⟨levels, tuples, rows.map Prod.snd, times⟩

/-- The instant-query path (`query`, lines 66-99): line 97's sort of the
response-data dict raises `TypeError` whenever a comparator is given
(see `applySortV`); otherwise `_to_pandas(results)` runs the vector
pipeline.  Note the source passes its `labels` argument NOWHERE:
`_to_pandas` is called without it (line 99), so the extra labels never
reach `_metric_index` on this path. -/
def queryInstant {κ : Type} [LinearOrder κ] (results : List SeriesV)
    (labels : Dict) (sortKey : Option (Dict → κ)) : Except Err VFrame :=
  match applySortV sortKey results with
  | .error e => .error e
  | .ok rs =>
    match metricIndex (vectorToNumpy rs).2 [] with
    | .error e => .error e
    | .ok (levels, tuples) => .ok ⟨levels, tuples, (vectorToNumpy rs).1⟩

/-! ### Time Normalizer (`duration_to_s`, `to_ts`, `ts_to_ms`) -/

/-- The duration units of `duration_codes` (source lines 356-364), in the
alternation order of the generated regex `ms|s|m|h|d|w|y`. -/
inductive DUnit where
  | ms | s | m | h | d | w | y
  deriving DecidableEq

/-- The fixed multiplier of each unit, in seconds. -/
def unitMult : DUnit → ℚ
  | .ms => mkRat 1 1000
  | .s => 1
  | .m => 60
  | .h => 3600
  | .d => 86400
  | .w => 604800
  | .y => 31536000

/-- The characters a unit occupies in a duration string. -/
def unitChars : DUnit → List Char
  | .ms => ['m', 's']
  | .s => ['s']
  | .m => ['m']
  | .h => ['h']
  | .d => ['d']
  | .w => ['w']
  | .y => ['y']

/-- Match one unit token at the front of the character list, trying `ms`
before `m` exactly as the regex alternation `ms|s|m|h|d|w|y` does. -/
def parseUnit : List Char → Option (DUnit × List Char)
  | [] => none
  | c :: rest =>
    if c = 'm' then
      match rest with
      | c2 :: rest2 => if c2 = 's' then some (.ms, rest2) else some (.m, rest)
      | [] => some (.m, rest)
    else if c = 's' then some (.s, rest)
    else if c = 'h' then some (.h, rest)
    else if c = 'd' then some (.d, rest)
    else if c = 'w' then some (.w, rest)
    else if c = 'y' then some (.y, rest)
    else none

/-- Python `int` on a nonempty string of decimal digits. -/
def digitsVal (ds : List Char) : ℕ :=
  ds.foldl (fun a c => a * 10 + (c.toNat - 48)) 0

/-- The match of `re.fullmatch('((\d+)(ms|s|m|h|d|w|y))+', s)` together with
the `re.finditer` summation loop, as a scanner: repeatedly read a maximal
nonempty digit run and a unit and accumulate `int(num) * multiplier`.  The
`fuel` argument only forces termination; `fuel = length + 1` always
suffices. -/
def scanDur : ℕ → List Char → Except Err ℚ
  | 0, _ => .error .invalidDurationFormat
  | fuel + 1, cs =>
    let ds := cs.takeWhile Char.isDigit
    let rest := cs.dropWhile Char.isDigit
    if ds.isEmpty then .error .invalidDurationFormat
    else
      match parseUnit rest with
      | none => .error .invalidDurationFormat
      | some (u, rest2) =>
        if rest2.isEmpty then .ok ((digitsVal ds : ℚ) * unitMult u)
        else
          match scanDur fuel rest2 with
          | .error e => .error e
          | .ok v => .ok ((digitsVal ds : ℚ) * unitMult u + v)

/-- Parse a full duration string. -/
def parseDuration (cs : List Char) : Except Err ℚ :=
  scanDur (cs.length + 1) cs

/-- The runtime type of the `duration` argument (the `Duration` union of the
source).  A `datetime.timedelta` falls in the `other` case: the source
type-checks against `(str, float, int)` first, so the later `timedelta`
branch is unreachable and a timedelta raises `TypeError`. -/
inductive DurInput where
  | flt (x : ℚ)
  | intg (n : ℤ)
  | strg (s : String)
  | other

/-- Source `duration_to_s` (lines 333-379): floats and ints pass through as
seconds, strings are parsed against the duration grammar, anything else is a
type error. -/
def duration_to_s : DurInput → Except Err ℚ
  | .flt x => .ok x
  | .intg n => .ok (n : ℚ)
  | .strg s => parseDuration s.data
  | .other => .error .typeError

/-- The runtime type of a `Timestamp` argument.  An RFC-3339 string is
handed to the external `dateutil` parser, so a string input carries that
collaborator's outcome (`none` = the parse raised); a `datetime` carries the
epoch seconds its `timestamp()` method returns. -/
inductive TsInput where
  | flt (x : ℚ)
  | strg (parsed : Option ℚ)
  | dt (epoch : ℚ)
  | other

/-- Source `to_ts` (lines 307-330): type-check, pass floats through, parse
strings, call `timestamp()` on datetimes. -/
def to_ts : TsInput → Except Err ℚ
  | .flt x => .ok x
  | .strg (some p) => .ok p
  | .strg none => .error .timestampParseError
  | .dt e => .ok e
  | .other => .error .invalidTimestampType

/-- Source `ts_to_ms` (lines 382-383): `int(round(to_ts(ts) * 1000))`.
Python `round` on a float rounds to the nearest integer with ties to the
nearest even integer. -/
def ts_to_ms (ts : TsInput) : Except Err ℤ :=
  match to_ts ts with
  | .error e => .error e
  | .ok t => .ok (roundHalfEven (t * 1000))

/-! ### Cache key derivation (`hashlib.sha256(query.encode('utf-8')).hexdigest()`)

A direct implementation of FIPS 180-4 SHA-256 over byte lists, with 32-bit
words as naturals reduced mod `2^32`. -/

/-- Truncate to a 32-bit word. -/
def w32 (x : ℕ) : ℕ := x % 4294967296

/-- 32-bit modular addition. -/
def add32 (a b : ℕ) : ℕ := (a + b) % 4294967296

/-- Logical right shift of a 32-bit word. -/
def shr32 (n x : ℕ) : ℕ := x / 2 ^ n

/-- Right rotation of a 32-bit word (`x < 2^32`, `n ≤ 32`). -/
def rotr32 (n x : ℕ) : ℕ := x / 2 ^ n + x % 2 ^ n * 2 ^ (32 - n)

/-- Three-way xor. -/
def xor3 (a b c : ℕ) : ℕ := Nat.xor (Nat.xor a b) c

/-- The big sigma-0 function of the compression loop. -/
def bS0 (x : ℕ) : ℕ := xor3 (rotr32 2 x) (rotr32 13 x) (rotr32 22 x)

/-- The big sigma-1 function of the compression loop. -/
def bS1 (x : ℕ) : ℕ := xor3 (rotr32 6 x) (rotr32 11 x) (rotr32 25 x)

/-- The small sigma-0 function of the message schedule. -/
def sS0 (x : ℕ) : ℕ := xor3 (rotr32 7 x) (rotr32 18 x) (shr32 3 x)

/-- The small sigma-1 function of the message schedule. -/
def sS1 (x : ℕ) : ℕ := xor3 (rotr32 17 x) (rotr32 19 x) (shr32 10 x)

/-- The choose function. -/
def chF (e f g : ℕ) : ℕ := Nat.xor (Nat.land e f) (Nat.land (Nat.xor e 4294967295) g)

/-- The majority function. -/
def majF (a b c : ℕ) : ℕ := Nat.xor (Nat.xor (Nat.land a b) (Nat.land a c)) (Nat.land b c)

/-- The 64 SHA-256 round constants. -/
def K256 : List ℕ :=
  [1116352408, 1899447441, 3049323471, 3921009573, 961987163,
   1508970993, 2453635748, 2870763221, 3624381080, 310598401,
   607225278, 1426881987, 1925078388, 2162078206, 2614888103,
   3248222580, 3835390401, 4022224774, 264347078, 604807628,
   770255983, 1249150122, 1555081692, 1996064986, 2554220882,
   2821834349, 2952996808, 3210313671, 3336571891, 3584528711,
   113926993, 338241895, 666307205, 773529912, 1294757372,
   1396182291, 1695183700, 1986661051, 2177026350, 2456956037,
   2730485921, 2820302411, 3259730800, 3345764771, 3516065817,
   3600352804, 4094571909, 275423344, 430227734, 506948616,
   659060556, 883997877, 958139571, 1322822218, 1537002063,
   1747873779, 1955562222, 2024104815, 2227730452, 2361852424,
   2428436474, 2756734187, 3204031479, 3329325298]

/-- The eight-word hash state. -/
structure H8 where
  a : ℕ
  b : ℕ
  c : ℕ
  d : ℕ
  e : ℕ
  f : ℕ
  g : ℕ
  h : ℕ

/-- The SHA-256 initial hash value. -/
def initH : H8 :=
  ⟨1779033703, 3144134277, 1013904242, 2773480762,
   1359893119, 2600822924, 528734635, 1541459225⟩

/-- Big-endian byte rendering of `x` on `count` bytes. -/
def beBytes (count x : ℕ) : List ℕ :=
  (List.range count).map (fun i => x / 2 ^ (8 * (count - 1 - i)) % 256)

/-- Big-endian word value of a byte list. -/
def beWord (bs : List ℕ) : ℕ := bs.foldl (fun a b => a * 256 + b) 0

/-- SHA-256 padding: append `0x80`, zeros to 56 mod 64, and the bit length
on 8 bytes. -/
def padMsg (msg : List ℕ) : List ℕ :=
  msg ++ [128] ++ List.replicate ((119 - msg.length % 64) % 64) 0
      ++ beBytes 8 (8 * msg.length)

/-- Fuel-driven worker for `chunks64`; each step consumes 64 bytes, so fuel
equal to the length always suffices. -/
def chunksGo : ℕ → List ℕ → List (List ℕ)
  | 0, _ => []
  | _ + 1, [] => []
  | fuel + 1, l => l.take 64 :: chunksGo fuel (l.drop 64)

/-- Split into 64-byte chunks. -/
def chunks64 (l : List ℕ) : List (List ℕ) := chunksGo l.length l

/-- The first 16 words of the message schedule: the chunk bytes, big
endian. -/
def chunkWords (c : List ℕ) : List ℕ :=
  (List.range 16).map (fun i => beWord ((c.drop (4 * i)).take 4))

/-- Extend 16 schedule words to 64. -/
def extendW (w : List ℕ) : List ℕ :=
  (List.range 48).foldl
    (fun ws i =>
      ws ++ [add32 (add32 (ws.getD i 0) (sS0 (ws.getD (i + 1) 0)))
                   (add32 (ws.getD (i + 9) 0) (sS1 (ws.getD (i + 14) 0)))])
    w

/-- One round of the compression function, consuming a (round constant,
schedule word) pair. -/
def compressStep (st : H8) (kw : ℕ × ℕ) : H8 :=
  let t1 := add32 (add32 (add32 st.h (bS1 st.e)) (add32 (chF st.e st.f st.g) kw.1)) kw.2
  let t2 := add32 (bS0 st.a) (majF st.a st.b st.c)
  ⟨add32 t1 t2, st.a, st.b, st.c, add32 st.d t1, st.e, st.f, st.g⟩

/-- Process one 64-byte chunk. -/
def processChunk (H : H8) (c : List ℕ) : H8 :=
  let w := extendW (chunkWords c)
  let st := (K256.zip w).foldl compressStep H
  ⟨add32 H.a st.a, add32 H.b st.b, add32 H.c st.c, add32 H.d st.d,
   add32 H.e st.e, add32 H.f st.f, add32 H.g st.g, add32 H.h st.h⟩

/-- The SHA-256 digest (32 bytes) of a byte list. -/
def sha256Bytes (msg : List ℕ) : List ℕ :=
  let R := (chunks64 (padMsg msg)).foldl processChunk initH
  beBytes 4 R.a ++ beBytes 4 R.b ++ beBytes 4 R.c ++ beBytes 4 R.d ++
  beBytes 4 R.e ++ beBytes 4 R.f ++ beBytes 4 R.g ++ beBytes 4 R.h

/-- The 16 lowercase hexadecimal digits. -/
def hexChars : List Char :=
  "0123456789abcdef".data

/-- Two lowercase hex characters for one byte. -/
def byteHex (b : ℕ) : List Char :=
  [hexChars.getD (b / 16 % 16) '0', hexChars.getD (b % 16) '0']

/-- The lowercase hex digest string, as `hexdigest()` returns it. -/
def sha256hex (msg : List ℕ) : String :=
  ⟨(sha256Bytes msg).flatMap byteHex⟩

/-- UTF-8 encoding of a string (`query.encode('utf-8')`), as code-point
bytes. -/
def utf8Char (c : Char) : List ℕ :=
  let n := c.toNat
  if n < 128 then [n]
  else if n < 2048 then [192 + n / 64, 128 + n % 64]
  else if n < 65536 then [224 + n / 4096, 128 + n / 64 % 64, 128 + n % 64]
  else [240 + n / 262144, 128 + n / 4096 % 64, 128 + n / 64 % 64, 128 + n % 64]

/-- UTF-8 encode a whole string. -/
def utf8Encode (s : String) : List ℕ := s.data.flatMap utf8Char

/-- Source lines 62-63 and 132-134: `query_hash =
hashlib.sha256(query.encode('utf-8')).hexdigest()` — the cache key is
derived from the query text alone. -/
def queryHash (q : String) : String := sha256hex (utf8Encode q)

/-- The cache filename for a query: `f'...query_hash....parquet'`. -/
def cacheFile (q : String) : String := queryHash q ++ ".parquet"

/-! ### Cache Manager and `query_range` control flow -/

/-- The cache directory: `none` when the directory does not exist, otherwise
the files it holds, as filename / deserialized-table pairs.  Parquet
serialization round-trips the table, so files store `Frame` values
directly. -/
abbrev FS := Option (List (String × Frame))

/-- `exists(path / name)` and `pd.read_parquet`: the file with that name, if
present. -/
def lookupFile (name : String) (fls : List (String × Frame)) : Option Frame :=
  (fls.find? (fun p => p.1 == name)).map Prod.snd

/-- Source `flush_query_cache` (lines 60-64): `os.remove` of the single file
for the query hash; raises `FileNotFoundError` when the file (or the
directory) does not exist. -/
def removeFile (name : String) (fs : FS) : Except Err FS :=
  match fs with
  | none => .error .fileNotFound
  | some fls =>
    if (fls.find? (fun p => p.1 == name)).isSome then
      .ok (some (fls.filter (fun p => p.1 != name)))
    else .error .fileNotFound

/-- `metric_df.to_parquet(path / name)`: write the file into the directory,
replacing an existing file of the same name. -/
def storeFile (name : String) (fr : Frame) (fs : FS) : Except Err FS :=
  match fs with
  | none => .error .fileNotFound
  | some fls => .ok (some (dInsert fls name fr))

/-- Evaluation of `duration_to_s(timeout)` for the request params when a
timeout was passed. -/
def checkTimeout : Option DurInput → Except Err Unit
  | none => .ok ()
  | some d =>
    match duration_to_s d with
    | .error e => .error e
    | .ok _ => .ok ()

/-- The arguments of one `query_range` invocation.  `κ` is the (totally
ordered) key type of the optional sort projection. -/
structure QRArgs (κ : Type) where
  query : String
  tstart : TsInput
  tstop : TsInput
  step : DurInput
  labels : Dict
  timeout : Option DurInput
  sortKey : Option (Dict → κ)
  flushCache : Bool

/-- Whether an `Except` carries a value. -/
def okB {α : Type} : Except Err α → Bool
  | .ok _ => true
  | .error _ => false

/-- The argument conversions at the top of `query_range` (lines 123-130) all
succeed. -/
def validArgs {κ : Type} (a : QRArgs κ) : Prop :=
  okB (to_ts a.tstart) = true ∧ okB (to_ts a.tstop) = true ∧
  okB (duration_to_s a.step) = true ∧ okB (checkTimeout a.timeout) = true

instance {κ : Type} (a : QRArgs κ) : Decidable (validArgs a) := by
  unfold validArgs; infer_instance

/-- The cache-miss tail of `query_range` (lines 148-165): contact the
transport, materialize, store the table under the query hash, return it. -/
def runMiss {κ : Type} [LinearOrder κ] (key : String) (fs : FS)
    (tr : Except Err (List SeriesM)) (es ee ss : ℚ) (a : QRArgs κ) :
    Except Err (Frame × FS) :=
  match tr with
  | .error e => .error e
  | .ok results =>
    match toPandasMatrix results es ee ss a.sortKey a.labels with
    | .error e => .error e
    | .ok fr =>
      match storeFile key fr fs with
      | .error e => .error e
      | .ok fs2 => .ok (fr, fs2)

/-- Source `query_range` (lines 101-165).  `cached` is whether a
`cache_path` was configured; `fs` is the state of the cache directory; `tr`
is the transport collaborator's decoded `data.result` (range responses are
matrix-shaped).  Conversion of `start`, `end`, `step` and `timeout` happens
first; with a cache path, a requested flush runs `flush_query_cache`, a
cache hit returns the deserialized file without touching the transport, and
a miss creates the directory if needed, runs the pipeline and stores the
result. -/
def queryRange {κ : Type} [LinearOrder κ] (cached : Bool) (fs : FS)
    (tr : Except Err (List SeriesM)) (a : QRArgs κ) :
    Except Err (Frame × FS) :=
  match to_ts a.tstart with
  | .error e => .error e
  | .ok es =>
  match to_ts a.tstop with
  | .error e => .error e
  | .ok ee =>
  match duration_to_s a.step with
  | .error e => .error e
  | .ok ss =>
  match checkTimeout a.timeout with
  | .error e => .error e
  | .ok _ =>
  if cached then
    match (if a.flushCache then removeFile (cacheFile a.query) fs else .ok fs) with
    | .error e => .error e
    | .ok fs1 =>
      match fs1 with
      | some fls =>
        match lookupFile (cacheFile a.query) fls with
        | some fr => .ok (fr, some fls)
        | none => runMiss (cacheFile a.query) (some fls) tr es ee ss a
      | none => runMiss (cacheFile a.query) (some []) tr es ee ss a
  else
    match tr with
    | .error e => .error e
    | .ok results =>
      match toPandasMatrix results es ee ss a.sortKey a.labels with
      | .error e => .error e
      | .ok fr => .ok (fr, fs)

/-! ### Helper lemmas about the embedded operations -/

theorem seqSeries_okB {α β : Type} (g : α → Except Err β) (l : List α) :
    okB (seqSeries g l) = true ↔ ∀ x ∈ l, okB (g x) = true := by
  induction l with
  | nil => simp [seqSeries, okB]
  | cons x xs ih =>
    simp only [seqSeries]
    cases hg : g x with
    | error e => simp [okB, hg]
    | ok y =>
      cases hs : seqSeries g xs with
      | error e =>
        rw [hs] at ih
        simp only [okB] at ih ⊢
        simp [hg, ← ih]
      | ok ys =>
        rw [hs] at ih
        simp only [okB] at ih ⊢
        simp [hg, ← ih]

theorem seqSeries_get {α β : Type} {g : α → Except Err β} :
    ∀ (l : List α) (ys : List β), seqSeries g l = .ok ys →
    ∀ (i : ℕ) (x : α), l[i]? = some x → ∃ y, ys[i]? = some y ∧ g x = .ok y := by
  intro l
  induction l with
  | nil => intro ys _ i x hx; simp at hx
  | cons a as ih =>
    intro ys h i x hx
    simp only [seqSeries] at h
    cases hg : g a with
    | error e => rw [hg] at h; cases h
    | ok y =>
      rw [hg] at h
      cases hs : seqSeries g as with
      | error e => rw [hs] at h; cases h
      | ok zs =>
        rw [hs] at h
        cases h
        cases i with
        | zero =>
          simp only [List.getElem?_cons_zero] at hx ⊢
          cases hx
          exact ⟨y, rfl, hg⟩
        | succ i2 =>
          simp only [List.getElem?_cons_succ] at hx ⊢
          exact ih zs hs i2 x hx

theorem applyWrites_cons (row : List (Option ℚ)) (w : ℕ × ℚ) (ws : List (ℕ × ℚ)) :
    applyWrites row (w :: ws) = applyWrites (row.set w.1 (some w.2)) ws := rfl

theorem applyWrites_length :
    ∀ (ws : List (ℕ × ℚ)) (row : List (Option ℚ)),
      (applyWrites row ws).length = row.length := by
  intro ws
  induction ws with
  | nil => intro row; rfl
  | cons w ws ih =>
    intro row
    rw [applyWrites_cons, ih, List.length_set]

theorem applyWrites_skip :
    ∀ (ws : List (ℕ × ℚ)) (row : List (Option ℚ)) (i : ℕ),
      (∀ w ∈ ws, w.1 ≠ i) → (applyWrites row ws)[i]? = row[i]? := by
  intro ws
  induction ws with
  | nil => intro row i _; rfl
  | cons w ws ih =>
    intro row i h
    rw [applyWrites_cons, ih _ _ (fun w2 hw2 => h w2 (List.mem_cons_of_mem _ hw2)),
      List.getElem?_set_ne (h w (List.mem_cons_self _ _))]

theorem applyWrites_last :
    ∀ (ws : List (ℕ × ℚ)) (row : List (Option ℚ)) (j : ℕ) (w : ℕ × ℚ),
      ws[j]? = some w → w.1 < row.length →
      (∀ j2 w2, j < j2 → ws[j2]? = some w2 → w2.1 ≠ w.1) →
      (applyWrites row ws)[w.1]? = some (some w.2) := by
  intro ws
  induction ws with
  | nil => intro row j w hj; simp at hj
  | cons w0 ws ih =>
    intro row j w hj hlen hlater
    cases j with
    | zero =>
      simp only [List.getElem?_cons_zero] at hj
      injection hj with hj
      subst hj
      rw [applyWrites_cons]
      have hskip : ∀ w2 ∈ ws, w2.1 ≠ w0.1 := by
        intro w2 hw2
        obtain ⟨j2, hj2⟩ := List.mem_iff_getElem?.mp hw2
        exact hlater (j2 + 1) w2 (Nat.succ_pos j2) (by simpa using hj2)
      rw [applyWrites_skip ws _ _ hskip, List.getElem?_set_self hlen]
    | succ j2 =>
      simp only [List.getElem?_cons_succ] at hj
      rw [applyWrites_cons]
      refine ih _ j2 w hj (by rw [List.length_set]; exact hlen) ?_
      intro j3 w3 hlt hj3
      exact hlater (j3 + 1) w3 (by omega) (by simpa using hj3)

theorem normIdx_lt {n : ℕ} {i : ℤ} (h1 : -(n : ℤ) ≤ i) (h2 : i < (n : ℤ)) :
    normIdx n i < n := by
  unfold normIdx
  split <;> omega

theorem normIdx_of_nonneg {n : ℕ} {i : ℤ} (h : 0 ≤ i) : normIdx n i = i.toNat := by
  unfold normIdx
  split <;> omega

theorem normIdx_of_neg {n : ℕ} {i : ℤ} (h : i < 0) : normIdx n i = (i + n).toNat := by
  unfold normIdx
  split <;> omega

theorem matrixToNumpy_ok_elim {results : List SeriesM} {start stop step : ℚ}
    {rows : List (Dict × List (Option ℚ))} {times : List ℚ}
    (h : matrixToNumpy results start stop step = .ok (rows, times)) :
    times = gridTimes start stop step ∧
    seqSeries (perSeriesM start step (gridTimes start stop step).length) results =
      .ok rows := by
  unfold matrixToNumpy at h
  cases hs : seqSeries (perSeriesM start step (gridTimes start stop step).length)
      results with
  | error e => rw [hs] at h; cases h
  | ok rows2 => rw [hs] at h; cases h; exact ⟨rfl, rfl⟩

/-- The normalized write list of one series: rounded slot and value per raw
sample. -/
def seriesWrites (start step : ℚ) (n : ℕ) (t : SeriesM) : List (ℕ × ℚ) :=
  t.values.map (fun s => (normIdx n (roundHalfEven (qdiv (s.1 - start) step)), s.2))

theorem perSeriesM_ok_elim {start step : ℚ} {n : ℕ} {t : SeriesM}
    {y : Dict × List (Option ℚ)} (h : perSeriesM start step n t = .ok y) :
    t.values ≠ [] ∧
    (∀ sm ∈ t.values, -(n : ℤ) ≤ roundHalfEven (qdiv (sm.1 - start) step) ∧
      roundHalfEven (qdiv (sm.1 - start) step) < (n : ℤ)) ∧
    y = (t.metric, applyWrites (List.replicate n none) (seriesWrites start step n t)) := by
  unfold perSeriesM at h
  by_cases hv : t.values.isEmpty
  · rw [if_pos hv] at h; cases h
  · rw [if_neg hv] at h
    unfold writeSlots at h
    by_cases hall : (t.values.map
        (fun s => (roundHalfEven (qdiv (s.1 - start) step), s.2))).all
        (fun w => decide (-(n : ℤ) ≤ w.1) && decide (w.1 < (n : ℤ))) = true
    · rw [if_pos hall] at h
      cases h
      refine ⟨by simpa [List.isEmpty_iff] using hv, ?_, ?_⟩
      · intro sm hsm
        have := (List.all_eq_true.mp hall) _ (List.mem_map_of_mem _ hsm)
        simpa using this
      · unfold seriesWrites
        rw [List.map_map]
        rfl
    · rw [if_neg hall] at h
      cases h

theorem perSeriesM_okB {start step : ℚ} {n : ℕ} {t : SeriesM} :
    okB (perSeriesM start step n t) = true ↔
    (t.values ≠ [] ∧ ∀ sm ∈ t.values,
      -(n : ℤ) ≤ roundHalfEven (qdiv (sm.1 - start) step) ∧
      roundHalfEven (qdiv (sm.1 - start) step) < (n : ℤ)) := by
  constructor
  · intro h
    cases hp : perSeriesM start step n t with
    | error e => rw [hp] at h; cases h
    | ok y =>
      obtain ⟨h1, h2, _⟩ := perSeriesM_ok_elim hp
      exact ⟨h1, h2⟩
  · rintro ⟨h1, h2⟩
    unfold perSeriesM
    rw [if_neg (by simpa [List.isEmpty_iff] using h1)]
    unfold writeSlots
    have hall : (t.values.map
        (fun s => (roundHalfEven (qdiv (s.1 - start) step), s.2))).all
        (fun w => decide (-(n : ℤ) ≤ w.1) && decide (w.1 < (n : ℤ))) = true := by
      rw [List.all_eq_true]
      rintro w hw
      rw [List.mem_map] at hw
      obtain ⟨sm, hsm, rfl⟩ := hw
      have := h2 sm hsm
      simpa using this
    rw [if_pos hall]
    simp [okB]

/-- Shared "last write to a cell" lemma for `_matrix_to_numpy`: after a
successful materialization, a sample whose normalized slot is not hit by any
later sample of its series determines the value of that cell. -/
theorem matrix_cell {results : List SeriesM} {start stop step : ℚ}
    {rows : List (Dict × List (Option ℚ))} {times : List ℚ}
    (hok : matrixToNumpy results start stop step = .ok (rows, times))
    {ii : ℕ} {t : SeriesM} (ht : results[ii]? = some t)
    {j : ℕ} {sm : ℚ × ℚ} (hj : t.values[j]? = some sm)
    (hlater : ∀ j2 sm2, j < j2 → t.values[j2]? = some sm2 →
      normIdx times.length (roundHalfEven (qdiv (sm2.1 - start) step)) ≠
      normIdx times.length (roundHalfEven (qdiv (sm.1 - start) step))) :
    ∃ row, rows[ii]? = some (t.metric, row) ∧
      row[normIdx times.length (roundHalfEven (qdiv (sm.1 - start) step))]? =
        some (some sm.2) := by
  obtain ⟨rfl, hseq⟩ := matrixToNumpy_ok_elim hok
  set n := (gridTimes start stop step).length with hn
  obtain ⟨y, hy, hps⟩ := seqSeries_get results rows hseq ii t ht
  obtain ⟨_, hbnd, rfl⟩ := perSeriesM_ok_elim hps
  refine ⟨_, hy, ?_⟩
  have hsm_mem : sm ∈ t.values := List.mem_iff_getElem?.mpr ⟨j, hj⟩
  have hb := hbnd sm hsm_mem
  have hws : (seriesWrites start step n t)[j]? =
      some (normIdx n (roundHalfEven (qdiv (sm.1 - start) step)), sm.2) := by
    unfold seriesWrites
    rw [List.getElem?_map, hj]
    rfl
  have hlen : normIdx n (roundHalfEven (qdiv (sm.1 - start) step)) <
      (List.replicate n (none : Option ℚ)).length := by
    rw [List.length_replicate]
    exact normIdx_lt hb.1 hb.2
  exact applyWrites_last _ _ j _ hws hlen (by
    intro j2 w2 hlt hj2
    unfold seriesWrites at hj2
    rw [List.getElem?_map] at hj2
    cases hv2 : t.values[j2]? with
    | none => rw [hv2] at hj2; cases hj2
    | some sm2 =>
      rw [hv2] at hj2
      cases hj2
      exact hlater j2 sm2 hlt hv2)

theorem matrixToNumpy_okB (results : List SeriesM) (start stop step : ℚ) :
    okB (matrixToNumpy results start stop step) = true ↔
    ∀ t ∈ results, t.values ≠ [] ∧ ∀ sm ∈ t.values,
      -(((gridTimes start stop step).length : ℕ) : ℤ) ≤
        roundHalfEven (qdiv (sm.1 - start) step) ∧
      roundHalfEven (qdiv (sm.1 - start) step) <
        (((gridTimes start stop step).length : ℕ) : ℤ) := by
  have hmain : okB (matrixToNumpy results start stop step) =
      okB (seqSeries (perSeriesM start step (gridTimes start stop step).length)
        results) := by
    unfold matrixToNumpy
    cases hs : seqSeries (perSeriesM start step (gridTimes start stop step).length)
        results with
    | error e => rfl
    | ok rows => rfl
  rw [hmain, seqSeries_okB]
  constructor
  · intro h t ht
    exact perSeriesM_okB.mp (h t ht)
  · intro h t ht
    exact perSeriesM_okB.mpr (h t ht)

/-! ### Claim C1: matrix slot computation -/

/-- C1 counterexample: a raw sample at `t = 5/2` with `start = 0, step = 1`
sits exactly halfway between slots 2 and 3.  Rounding ties away from zero
would place its value in slot 3, but the materializer (via `np.rint`) places
it in slot 2 and leaves slot 3 as the NaN fill. -/
theorem matrix_slot_ties_away_cex :
    matrixToNumpy [⟨[("a", "1")], [(mkRat 5 2, 7)]⟩] 0 10 1 =
      .ok ([([("a", "1")],
        [none, none, some 7, none, none, none, none, none, none, none, none])],
        [0, 1, 2, 3, 4, 5, 6, 7, 8, 9, 10]) ∧
    qdiv ((mkRat 5 2 : ℚ) - 0) 1 = 2 + 1/2 ∧
    roundHalfEven (qdiv ((mkRat 5 2 : ℚ) - 0) 1) = 2 := by
  refine ⟨by with_unfolding_all decide, ?_, by with_unfolding_all decide⟩
  rw [qdiv_eq, Rat.mkRat_eq_div]
  norm_num

/-- C1 (corrected): in a successful range materialization, a raw sample
`(t, v)` is written into the grid slot `rint((t - start) / step)`, where the
rounding is to the nearest integer with ties to the nearest EVEN integer
(the semantics of `np.rint`), not ties away from zero.  The cell at that
slot holds `v` provided no later sample of the same series lands on the same
normalized slot (later writes of `data[ii, inds] = values` win). -/
theorem matrix_slot_round_half_even
    {results : List SeriesM} {start stop step : ℚ}
    {rows : List (Dict × List (Option ℚ))} {times : List ℚ}
    (hok : matrixToNumpy results start stop step = .ok (rows, times))
    {ii : ℕ} {t : SeriesM} (ht : results[ii]? = some t)
    {j : ℕ} {sm : ℚ × ℚ} (hj : t.values[j]? = some sm)
    (hpos : 0 ≤ roundHalfEven (qdiv (sm.1 - start) step))
    (hlater : ∀ j2 sm2, j < j2 → t.values[j2]? = some sm2 →
      normIdx times.length (roundHalfEven (qdiv (sm2.1 - start) step)) ≠
      (roundHalfEven (qdiv (sm.1 - start) step)).toNat) :
    ∃ row, rows[ii]? = some (t.metric, row) ∧
      row[(roundHalfEven (qdiv (sm.1 - start) step)).toNat]? = some (some sm.2) := by
  have hnorm := normIdx_of_nonneg (n := times.length) hpos
  have h := matrix_cell hok ht hj (by
    intro j2 sm2 hlt hj2
    rw [hnorm]
    exact hlater j2 sm2 hlt hj2)
  rwa [hnorm] at h

/-- C1 witness: the spec example, a sample at `t = 27/5 = 5.4` with
`start = 0, step = 5`, lands in slot `1` and its value is read back from
that cell. -/
theorem matrix_slot_round_half_even_witness :
    roundHalfEven (qdiv ((mkRat 27 5 : ℚ) - 0) 5) = 1 ∧
    ∃ row, ([([("a", "1")], [none, some 7, none])] :
        List (Dict × List (Option ℚ)))[0]? = some ([("a", "1")], row) ∧
      row[(roundHalfEven (qdiv ((mkRat 27 5 : ℚ) - 0) 5)).toNat]? = some (some 7) := by
  refine ⟨by with_unfolding_all decide, ?_⟩
  exact @matrix_slot_round_half_even
    [⟨[("a", "1")], [(mkRat 27 5, 7)]⟩] 0 10 5
    [([("a", "1")], [none, some 7, none])] [0, 5, 10]
    (by with_unfolding_all decide)
    0 ⟨[("a", "1")], [(mkRat 27 5, 7)]⟩ (by with_unfolding_all decide)
    0 (mkRat 27 5, 7) (by with_unfolding_all decide) (by with_unfolding_all decide)
    (by
      intro j2 sm2 hlt hj2
      rw [List.getElem?_eq_none (by simp only [List.length_cons, List.length_nil]; omega)] at hj2
      exact Option.noConfusion hj2)

/-! ### Claim C2: out-of-range slots -/

/-- C2 counterexample: with grid `[0..10]` (`start = 0, end = 10, step = 1`,
11 points), a sample whose slot is `-1` is NOT dropped: it wraps around and
its value `42` lands in the last cell; and a sample whose slot is `11` makes
the materialization fail with an index error instead of being dropped. -/
theorem matrix_oob_drop_cex :
    matrixToNumpy [⟨[("a", "1")], [(-1, 42)]⟩] 0 10 1 =
      .ok ([([("a", "1")],
        [none, none, none, none, none, none, none, none, none, none, some 42])],
        [0, 1, 2, 3, 4, 5, 6, 7, 8, 9, 10]) ∧
    roundHalfEven (qdiv ((-1 : ℚ) - 0) 1) = -1 ∧
    okB (matrixToNumpy [⟨[("a", "1")], [(11, 5)]⟩] 0 10 1) = false := by
  refine ⟨by with_unfolding_all decide, by with_unfolding_all decide, by with_unfolding_all decide⟩

/-- C2 (corrected): no out-of-range sample is silently dropped.
Materialization succeeds exactly when every series is nonempty and every
sample slot lies in `[-grid_length, grid_length)`; a sample with a negative
slot in `[-grid_length, 0)` wraps (NumPy negative indexing) and writes its
value into cell `grid_length + slot`, and a slot outside that range fails
the whole materialization with an index error. -/
theorem matrix_oob_wrap_or_fail (results : List SeriesM) (start stop step : ℚ) :
    (okB (matrixToNumpy results start stop step) = true ↔
      ∀ t ∈ results, t.values ≠ [] ∧ ∀ sm ∈ t.values,
        -(((gridTimes start stop step).length : ℕ) : ℤ) ≤
          roundHalfEven (qdiv (sm.1 - start) step) ∧
        roundHalfEven (qdiv (sm.1 - start) step) <
          (((gridTimes start stop step).length : ℕ) : ℤ)) ∧
    (∀ (rows : List (Dict × List (Option ℚ))) (times : List ℚ) (ii : ℕ)
        (t : SeriesM) (j : ℕ) (sm : ℚ × ℚ),
      matrixToNumpy results start stop step = .ok (rows, times) →
      results[ii]? = some t → t.values[j]? = some sm →
      roundHalfEven (qdiv (sm.1 - start) step) < 0 →
      (∀ j2 sm2, j < j2 → t.values[j2]? = some sm2 →
        normIdx times.length (roundHalfEven (qdiv (sm2.1 - start) step)) ≠
        (roundHalfEven (qdiv (sm.1 - start) step) + (times.length : ℤ)).toNat) →
      ∃ row, rows[ii]? = some (t.metric, row) ∧
        row[(roundHalfEven (qdiv (sm.1 - start) step) + (times.length : ℤ)).toNat]? =
          some (some sm.2)) := by
  constructor
  · exact matrixToNumpy_okB results start stop step
  · intro rows times ii t j sm hok ht hj hneg hlater
    have hnorm := normIdx_of_neg (n := times.length) hneg
    have h := matrix_cell hok ht hj (by
      intro j2 sm2 hlt hj2
      rw [hnorm]
      exact hlater j2 sm2 hlt hj2)
    rwa [hnorm] at h

/-- C2 witness: the wrap case at a concrete input — slot `-1` with grid
length 11 writes `42` into cell 10 — and the success criterion on a
concrete in-range input. -/
theorem matrix_oob_wrap_or_fail_witness :
    ∃ row, ([([("a", "1")],
        [none, none, none, none, none, none, none, none, none, none, some 42])] :
        List (Dict × List (Option ℚ)))[0]? = some ([("a", "1")], row) ∧
      row[(roundHalfEven (qdiv ((-1 : ℚ) - 0) 1) +
        (([0, 1, 2, 3, 4, 5, 6, 7, 8, 9, 10] : List ℚ).length : ℤ)).toNat]? =
        some (some 42) := by
  exact (matrix_oob_wrap_or_fail [⟨[("a", "1")], [(-1, 42)]⟩] 0 10 1).2
    [([("a", "1")],
      [none, none, none, none, none, none, none, none, none, none, some 42])]
    [0, 1, 2, 3, 4, 5, 6, 7, 8, 9, 10] 0 ⟨[("a", "1")], [(-1, 42)]⟩ 0 (-1, 42)
    (by with_unfolding_all decide) (by with_unfolding_all decide) (by with_unfolding_all decide) (by with_unfolding_all decide)
    (by
      intro j2 sm2 hlt hj2
      rw [List.getElem?_eq_none (by simp only [List.length_cons, List.length_nil]; omega)] at hj2
      exact Option.noConfusion hj2)

/-! ### Claim C8: `ts_to_ms` rounding -/

/-- C8 counterexample: `to_ts` of the float `125/16 = 7.8125` seconds is
exactly `7812.5` milliseconds, halfway between two integers; `ts_to_ms`
returns the SMALLER integer `7812` (the nearest even one), not the larger
`7813` that round-half-up would give.  (`7.8125` and `7812.5` are exactly
representable binary64 floats, and CPython evaluates
`int(round(7.8125 * 1000))` to `7812`.) -/
theorem ts_to_ms_half_up_cex :
    ts_to_ms (.flt (mkRat 125 16)) = .ok 7812 ∧
    (mkRat 125 16 : ℚ) * 1000 = 7812 + 1/2 := by
  refine ⟨by with_unfolding_all decide, ?_⟩
  rw [Rat.mkRat_eq_div]
  norm_num

/-- C8 (corrected): `ts_to_ms` is `normalize_timestamp` scaled to
milliseconds and rounded to the NEAREST integer — any tie is resolved to the
nearest EVEN integer (Python `round` banker's rounding), not to the larger
integer.  The rounding really is round-to-nearest (error at most one half),
and at an exact halfway point `n + 1/2` it returns `n` when `n` is even and
`n + 1` when `n` is odd. -/
theorem ts_to_ms_round_half_even :
    (∀ inp t, to_ts inp = .ok t → ts_to_ms inp = .ok (roundHalfEven (t * 1000))) ∧
    (∀ inp e, to_ts inp = .error e → ts_to_ms inp = .error e) ∧
    (∀ q : ℚ, |q - (roundHalfEven q : ℚ)| ≤ 1/2) ∧
    (∀ n : ℤ, roundHalfEven ((n : ℚ) + 1/2) = if n % 2 = 0 then n else n + 1) := by
  refine ⟨?_, ?_, ?_, ?_⟩
  · intro inp t h
    unfold ts_to_ms
    rw [h]
  · intro inp e h
    unfold ts_to_ms
    rw [h]
  · intro q
    have hle : (⌊q⌋ : ℚ) ≤ q := Int.floor_le q
    have hlt : q < ⌊q⌋ + 1 := Int.lt_floor_add_one q
    rw [roundHalfEven_floor_form]
    split_ifs with h1 h2 h3 <;> rw [abs_le] <;> constructor <;> push_cast <;>
      first
        | linarith
        | (rw [not_lt] at h1 h2; linarith)
        | (rw [not_lt] at h1; linarith)
  · intro n
    have hf : ⌊(n : ℚ) + 1/2⌋ = n := by
      rw [add_comm, Int.floor_add_int]
      norm_num
    rw [roundHalfEven_floor_form, hf]
    have hr : (n : ℚ) + 1/2 - (n : ℤ) = 1/2 := by push_cast; ring
    rw [hr]
    norm_num

/-- C8 witness: the exact-pipeline conjunct applied at the float input `5`
seconds. -/
theorem ts_to_ms_round_half_even_witness :
    ts_to_ms (.flt 5) = .ok (roundHalfEven (5 * 1000)) :=
  ts_to_ms_round_half_even.1 (.flt 5) 5 rfl

/-! ### Lemmas about the Label Index Builder -/

theorem sortStrings_perm (l : List String) : (sortStrings l).Perm l :=
  List.mergeSort_perm l _

theorem sortStrings_sorted (l : List String) : (sortStrings l).Pairwise (· ≤ ·) := by
  have h := @List.sorted_mergeSort String (fun a b : String => decide (a ≤ b))
    (fun a b c hab hbc => by
      simp only [decide_eq_true_eq] at *
      exact le_trans hab hbc)
    (fun a b => by simpa [Bool.or_eq_true, decide_eq_true_eq] using le_total a b) l
  exact h.imp (fun hab => by simpa using hab)

theorem levelsOf_sorted (ms : List Dict) : (levelsOf ms).Pairwise (· ≤ ·) :=
  sortStrings_sorted _

theorem levelsOf_nodup (ms : List Dict) : (levelsOf ms).Nodup :=
  ((sortStrings_perm _).nodup_iff).mpr (List.nodup_dedup _)

theorem levelsOf_mem (ms : List Dict) (k : String) :
    k ∈ levelsOf ms ↔ ∃ m ∈ ms, k ∈ dlKeys m := by
  unfold levelsOf
  rw [(sortStrings_perm _).mem_iff, List.mem_dedup, List.mem_flatMap]

theorem levelsOf_perm {ms1 ms2 : List Dict} (h : ms1.Perm ms2) :
    levelsOf ms1 = levelsOf ms2 := by
  refine List.eq_of_perm_of_sorted ?_ (levelsOf_sorted ms1) (levelsOf_sorted ms2)
  exact (sortStrings_perm _).trans (((h.flatMap_right dlKeys).dedup).trans
    (sortStrings_perm _).symm)

theorem levelsOf_eq_nil_iff (ms : List Dict) :
    levelsOf ms = [] ↔ ∀ m ∈ ms, dlKeys m = [] := by
  constructor
  · intro h m hm
    by_contra hne
    obtain ⟨k, hk⟩ := List.exists_mem_of_ne_nil _ hne
    have : k ∈ levelsOf ms := (levelsOf_mem ms k).mpr ⟨m, hm, hk⟩
    rw [h] at this
    exact List.not_mem_nil k this
  · intro h
    rw [List.eq_nil_iff_forall_not_mem]
    intro k hk
    obtain ⟨m, hm, hkm⟩ := (levelsOf_mem ms k).mp hk
    rw [h m hm] at hkm
    exact List.not_mem_nil k hkm

theorem metricIndex_ok_elim {metrics : List Dict} {labels : Dict}
    {levels : List String} {tuples : List (List (Option String))}
    (h : metricIndex metrics labels = .ok (levels, tuples)) :
    levels = levelsOf (remapAll (mergeMetricLabels metrics labels)) ∧
    tuples = (remapAll (mergeMetricLabels metrics labels)).map
      (fun m => levels.map (fun lv => dGet m lv)) ∧
    levels ≠ [] := by
  unfold metricIndex at h
  by_cases he : (levelsOf (remapAll (mergeMetricLabels metrics labels))).isEmpty
  · rw [if_pos he] at h
    cases h
  · rw [if_neg he] at h
    injection h with h2
    injection h2 with hL hT
    subst hL
    subst hT
    exact ⟨rfl, rfl, by simpa [List.isEmpty_iff] using he⟩

theorem metricIndex_err_iff (metrics : List Dict) (labels : Dict) :
    metricIndex metrics labels = .error .emptyLabelSpace ↔
    levelsOf (remapAll (mergeMetricLabels metrics labels)) = [] := by
  unfold metricIndex
  by_cases he : (levelsOf (remapAll (mergeMetricLabels metrics labels))).isEmpty
  · rw [if_pos he]
    simp only [List.isEmpty_iff] at he
    simp [he]
  · rw [if_neg he]
    simp only [List.isEmpty_iff] at he
    simp [he]

theorem metricIndex_ok_of_ne {metrics : List Dict} {labels : Dict}
    (h : levelsOf (remapAll (mergeMetricLabels metrics labels)) ≠ []) :
    metricIndex metrics labels =
      .ok (levelsOf (remapAll (mergeMetricLabels metrics labels)),
        (remapAll (mergeMetricLabels metrics labels)).map
          (fun m => (levelsOf (remapAll (mergeMetricLabels metrics labels))).map
            (fun lv => dGet m lv))) := by
  unfold metricIndex
  rw [if_neg (by simpa [List.isEmpty_iff] using h)]

/-! ### Claim C4: the Label Index Builder -/

/-- C4: on an already-merged list of label sets (empty extra labels, under
which `_merge_metric_labels` is the identity), `_metric_index` fails with the
empty-label-space error exactly when, after the reserved-name remap, no
series has any key; otherwise `levels` is the sorted duplicate-free union of
the remapped key names, and series `i` gets a tuple of length
`len(levels)` whose `j`-th entry is its value at `levels[j]`, or the null
placeholder `none` when that name is absent. -/
theorem metric_index_levels_spec (ms : List Dict) :
    (metricIndex ms [] = .error .emptyLabelSpace ↔
      ∀ m ∈ ms, dlKeys (remapName m) = []) ∧
    ∀ levels tuples, metricIndex ms [] = .ok (levels, tuples) →
      levels.Pairwise (· ≤ ·) ∧ levels.Nodup ∧
      (∀ k, k ∈ levels ↔ ∃ m ∈ ms, k ∈ dlKeys (remapName m)) ∧
      tuples.length = ms.length ∧
      (∀ (i : ℕ) (m : Dict), ms[i]? = some m → ∃ tup : List (Option String),
        tuples[i]? = some tup ∧ tup.length = levels.length ∧
        ∀ (j : ℕ) (lv : String), levels[j]? = some lv →
          tup[j]? = some (dGet (remapName m) lv)) := by
  have hmerge : mergeMetricLabels ms [] = ms := rfl
  constructor
  · rw [metricIndex_err_iff, hmerge]
    unfold remapAll
    rw [levelsOf_eq_nil_iff]
    constructor
    · intro h m hm
      exact h (remapName m) (List.mem_map_of_mem _ hm)
    · intro h m hm
      obtain ⟨m0, hm0, rfl⟩ := List.mem_map.mp hm
      exact h m0 hm0
  · intro levels tuples h
    obtain ⟨hL, hT, hne⟩ := metricIndex_ok_elim h
    rw [hmerge] at hL hT
    subst hL
    refine ⟨levelsOf_sorted _, levelsOf_nodup _, ?_, ?_, ?_⟩
    · intro k
      rw [levelsOf_mem]
      unfold remapAll
      constructor
      · rintro ⟨m, hm, hk⟩
        obtain ⟨m0, hm0, rfl⟩ := List.mem_map.mp hm
        exact ⟨m0, hm0, hk⟩
      · rintro ⟨m0, hm0, hk⟩
        exact ⟨remapName m0, List.mem_map_of_mem _ hm0, hk⟩
    · rw [hT]
      unfold remapAll
      rw [List.length_map, List.length_map]
    · intro i m hm
      refine ⟨(levelsOf (remapAll ms)).map (fun lv => dGet (remapName m) lv),
        ?_, ?_, ?_⟩
      · rw [hT]
        unfold remapAll
        rw [List.map_map, List.getElem?_map, hm]
        rfl
      · rw [List.length_map]
      · intro j lv hj
        rw [List.getElem?_map, hj]
        rfl

/-- C4 witness: two series with keys `b` and `a`: levels are the sorted
union `[a, b]` and the missing positions hold `none`. -/
theorem metric_index_levels_spec_witness :
    (["a", "b"] : List String).Pairwise (· ≤ ·) ∧ (["a", "b"] : List String).Nodup ∧
    (∀ k, k ∈ (["a", "b"] : List String) ↔
      ∃ m ∈ [[("b", "2")], [("a", "1")]], k ∈ dlKeys (remapName m)) ∧
    ([[none, some "2"], [some "1", none]] : List (List (Option String))).length =
      ([[("b", "2")], [("a", "1")]] : List Dict).length ∧
    (∀ (i : ℕ) (m : Dict), ([[("b", "2")], [("a", "1")]] : List Dict)[i]? = some m →
      ∃ tup : List (Option String), ([[none, some "2"], [some "1", none]] :
          List (List (Option String)))[i]? = some tup ∧
        tup.length = (["a", "b"] : List String).length ∧
        ∀ (j : ℕ) (lv : String), (["a", "b"] : List String)[j]? = some lv →
          tup[j]? = some (dGet (remapName m) lv)) :=
  (metric_index_levels_spec [[("b", "2")], [("a", "1")]]).2
    ["a", "b"] [[none, some "2"], [some "1", none]] (by with_unfolding_all decide)

/-! ### Claim C5: extra labels -/

/-- C5: the instant-query path drops the caller's extra labels.  `query`
accepts `labels` (documented as "labels to add to each set of metric
labels") but line 99 calls `_to_pandas(results)` without forwarding it, so
for an instant query with extra labels `env=prod` and one series labelled
`a=1`, the resulting index has levels `[a]` only — `env` never appears.  The
range path (`query_range` line 150-156) does forward `labels`, and there the
same series yields levels `[a, env]` with the extra label merged into the
series key and overriding nothing or a same-named engine label
(`metric_name` position shown by the third conjunct: a merged label replaces
the engine's value). -/
theorem instant_query_drops_labels :
    queryInstant (κ := ℕ) [⟨[("a", "1")], 2⟩] [("env", "prod")] none =
      .ok ⟨["a"], [[some "1"]], [2]⟩ ∧
    toPandasMatrix (κ := ℕ) [⟨[("a", "1")], [(0, 2)]⟩] 0 0 1 none [("env", "prod")] =
      .ok ⟨["a", "env"], [[some "1", some "prod"]], [[some 2]], [0]⟩ ∧
    mergeOne [("a", "override")] [("a", "1"), ("b", "2")] =
      [("a", "override"), ("b", "2")] := by
  refine ⟨by with_unfolding_all decide, by with_unfolding_all decide,
    by with_unfolding_all decide⟩

/-! ### Claim C3: the cache key -/

theorem hexChars_getD_mem (i : ℕ) : hexChars.getD i '0' ∈ hexChars := by
  rw [List.getD_eq_getElem?_getD]
  cases h : hexChars[i]? with
  | none => simp [hexChars]
  | some x =>
    have hx : x ∈ hexChars := List.mem_iff_getElem?.mpr ⟨i, h⟩
    simpa using hx

theorem byteHex_mem {b : ℕ} {c : Char} (hc : c ∈ byteHex b) : c ∈ hexChars := by
  unfold byteHex at hc
  rcases List.mem_cons.mp hc with h | h
  · rw [h]
    exact hexChars_getD_mem _
  · rcases List.mem_cons.mp h with h2 | h2
    · rw [h2]
      exact hexChars_getD_mem _
    · exact absurd h2 (List.not_mem_nil c)

theorem beBytes_length (count x : ℕ) : (beBytes count x).length = count := by
  unfold beBytes
  rw [List.length_map, List.length_range]

theorem sha256Bytes_length (msg : List ℕ) : (sha256Bytes msg).length = 32 := by
  unfold sha256Bytes
  simp only [List.length_append, beBytes_length]

theorem flatMap_byteHex_length (l : List ℕ) : (l.flatMap byteHex).length = 2 * l.length := by
  induction l with
  | nil => rfl
  | cons b bs ih =>
    rw [List.flatMap_cons, List.length_append, ih, List.length_cons]
    show 2 + 2 * bs.length = 2 * (bs.length + 1)
    ring

/-- C3: the cache key of a range query is the lowercase hex SHA-256 digest
of the UTF-8-encoded query text and of nothing else.  `queryHash` (the
embedding of `hashlib.sha256(query.encode('utf-8')).hexdigest()` at lines
62-63 and 132-134) is a 64-character string over the lowercase hex alphabet;
the cache filename is that digest plus `.parquet`; and any two invocations
with the same query text — whatever their start, end, step, labels, timeout,
sort, or flush arguments, even over different sort-key types — address the
same cache file. -/
theorem cache_key_query_text_only :
    (∀ q : String, queryHash q = sha256hex (utf8Encode q)) ∧
    (∀ q : String, (queryHash q).data.length = 64 ∧
      ∀ c ∈ (queryHash q).data, c ∈ hexChars) ∧
    (∀ q : String, cacheFile q = queryHash q ++ ".parquet") ∧
    (∀ {κ1 κ2 : Type} (a : QRArgs κ1) (b : QRArgs κ2), a.query = b.query →
      cacheFile a.query = cacheFile b.query) := by
  refine ⟨fun q => rfl, ?_, fun q => rfl, ?_⟩
  · intro q
    constructor
    · show ((sha256Bytes (utf8Encode q)).flatMap byteHex).length = 64
      rw [flatMap_byteHex_length, sha256Bytes_length]
    · intro c hc
      obtain ⟨b, _, hcb⟩ := List.mem_flatMap.mp hc
      exact byteHex_mem hcb
  · intro κ1 κ2 a b hab
    rw [hab]

/-- C3 witness: the digest and filename computed for the query text `up` are
independent of window, step, labels, timeout, sort and flush arguments. -/
theorem cache_key_query_text_only_witness :
    cacheFile "up" = queryHash "up" ++ ".parquet" ∧
    cacheFile (QRArgs.query (κ := ℕ)
        ⟨"up", .flt 0, .flt 1, .flt 5, [], none, none, false⟩) =
      cacheFile (QRArgs.query (κ := ℕ)
        ⟨"up", .flt 9, .flt 99, .strg "1h30m", [("x", "y")], some (.intg 7), none,
          true⟩) :=
  ⟨cache_key_query_text_only.2.2.1 "up",
   cache_key_query_text_only.2.2.2
     ⟨"up", .flt 0, .flt 1, .flt 5, [], none, none, false⟩
     ⟨"up", .flt 9, .flt 99, .strg "1h30m", [("x", "y")], some (.intg 7), none, true⟩
     rfl⟩

/-! ### Lemmas about the cache control flow -/

theorem okB_exists {α : Type} (e : Except Err α) : okB e = true ↔ ∃ v, e = .ok v := by
  cases e <;> simp [okB]

theorem find?_filter_self (fls : List (String × Frame)) (k : String) :
    (fls.filter (fun p => p.1 != k)).find? (fun p => p.1 == k) = none := by
  induction fls with
  | nil => rfl
  | cons p ps ih =>
    by_cases hp : p.1 = k
    · simpa [List.filter_cons, hp] using ih
    · simpa [List.filter_cons, List.find?_cons, hp] using ih

theorem find?_filter_other {k k2 : String} (hne : k2 ≠ k)
    (fls : List (String × Frame)) :
    (fls.filter (fun p => p.1 != k)).find? (fun p => p.1 == k2) =
    fls.find? (fun p => p.1 == k2) := by
  induction fls with
  | nil => rfl
  | cons p ps ih =>
    rw [List.filter_cons]
    by_cases hp : p.1 = k
    · rw [if_neg (by simp [hp]),
        List.find?_cons_of_neg _ (by
          simp only [beq_iff_eq, hp]
          exact fun h => hne h.symm)]
      exact ih
    · rw [if_pos (by simp [hp])]
      by_cases hq : p.1 = k2
      · rw [List.find?_cons_of_pos _ (by simp [hq]),
          List.find?_cons_of_pos _ (by simp [hq])]
      · rw [List.find?_cons_of_neg _ (by simp [hq]),
          List.find?_cons_of_neg _ (by simp [hq])]
        exact ih

/-- The forced-flush path of `query_range` on a never-cached query: the
argument conversions succeed, `flush_query_cache` raises, and the error
propagates before anything else happens. -/
theorem queryRange_flush_missing {κ : Type} [LinearOrder κ] (a : QRArgs κ)
    (fs : FS) (tr : Except Err (List SeriesM))
    (hf : a.flushCache = true) (hv : validArgs a)
    (hmiss : ∀ fls0, fs = some fls0 → lookupFile (cacheFile a.query) fls0 = none) :
    queryRange true fs tr a = .error .fileNotFound := by
  obtain ⟨h1, h2, h3, h4⟩ := hv
  obtain ⟨es, hes⟩ := (okB_exists _).mp h1
  obtain ⟨ee, hee⟩ := (okB_exists _).mp h2
  obtain ⟨ss, hss⟩ := (okB_exists _).mp h3
  obtain ⟨u, hu⟩ := (okB_exists _).mp h4
  have hrm : removeFile (cacheFile a.query) fs = .error .fileNotFound := by
    cases fs with
    | none => rfl
    | some fls0 =>
      unfold removeFile
      have hm := hmiss fls0 rfl
      unfold lookupFile at hm
      rw [Option.map_eq_none'] at hm
      simp [hm]
  unfold queryRange
  simp only [hes, hee, hss, hu, hf, hrm, if_true, eq_self_iff_true]

/-- The cache-hit path of `query_range`: the deserialized file contents come
back unchanged and the filesystem is untouched. -/
theorem queryRange_hit {κ : Type} [LinearOrder κ] (a : QRArgs κ)
    (fls : List (String × Frame)) (fr : Frame) (tr : Except Err (List SeriesM))
    (hf : a.flushCache = false) (hv : validArgs a)
    (hhit : lookupFile (cacheFile a.query) fls = some fr) :
    queryRange true (some fls) tr a = .ok (fr, some fls) := by
  obtain ⟨h1, h2, h3, h4⟩ := hv
  obtain ⟨es, hes⟩ := (okB_exists _).mp h1
  obtain ⟨ee, hee⟩ := (okB_exists _).mp h2
  obtain ⟨ss, hss⟩ := (okB_exists _).mp h3
  obtain ⟨u, hu⟩ := (okB_exists _).mp h4
  unfold queryRange
  simp only [hes, hee, hss, hu, hf, hhit, if_true, eq_self_iff_true,
    Bool.false_eq_true, if_false]

/-! ### Claim C9: `flush_query_cache` and forced flush -/

/-- C9: `flush_query_cache` deletes exactly the one file for the query's
key — afterwards that key is gone and every other filename resolves as
before — and it FAILS when the file (or the cache directory) does not
exist.  Consequently a `query_range` call with `flush_cache=True`, a
configured cache path and a never-cached query text fails with the
file-not-found error without contacting the transport: the outcome is an
error and is the same for every transport behaviour `tr`, `tr2`. -/
theorem flush_query_cache_spec {κ : Type} [LinearOrder κ] (q : String)
    (fls : List (String × Frame)) :
    (removeFile (cacheFile q) none = .error .fileNotFound) ∧
    (lookupFile (cacheFile q) fls = none →
      removeFile (cacheFile q) (some fls) = .error .fileNotFound) ∧
    (∀ fr, lookupFile (cacheFile q) fls = some fr →
      removeFile (cacheFile q) (some fls) =
        .ok (some (fls.filter (fun p => p.1 != cacheFile q))) ∧
      lookupFile (cacheFile q) (fls.filter (fun p => p.1 != cacheFile q)) = none ∧
      ∀ k2, k2 ≠ cacheFile q →
        lookupFile k2 (fls.filter (fun p => p.1 != cacheFile q)) =
          lookupFile k2 fls) ∧
    (∀ (a : QRArgs κ) (fs : FS) (tr tr2 : Except Err (List SeriesM)),
      a.query = q → a.flushCache = true → validArgs a →
      (∀ fls0, fs = some fls0 → lookupFile (cacheFile q) fls0 = none) →
      queryRange true fs tr a = .error .fileNotFound ∧
      queryRange true fs tr a = queryRange true fs tr2 a) := by
  refine ⟨rfl, ?_, ?_, ?_⟩
  · intro hnone
    unfold removeFile
    unfold lookupFile at hnone
    rw [Option.map_eq_none'] at hnone
    simp [hnone]
  · intro fr hfr
    refine ⟨?_, ?_, ?_⟩
    · unfold removeFile
      unfold lookupFile at hfr
      rw [Option.map_eq_some'] at hfr
      obtain ⟨p, hp, _⟩ := hfr
      simp [hp]
    · unfold lookupFile
      rw [find?_filter_self]
      rfl
    · intro k2 hk2
      unfold lookupFile
      rw [find?_filter_other hk2]
  · intro a fs tr tr2 hq hf hv hmiss
    subst hq
    have h1 := queryRange_flush_missing a fs tr hf hv hmiss
    have h2 := queryRange_flush_missing a fs tr2 hf hv hmiss
    exact ⟨h1, h1.trans h2.symm⟩

/-- C9 witness: with an existing but empty cache directory, a forced-flush
range query for the never-cached text `up` fails with the file-not-found
error. -/
theorem flush_query_cache_spec_witness :
    queryRange true (some []) (.ok [])
      (⟨"up", .flt 0, .flt 1, .flt 5, [], none, none, true⟩ : QRArgs ℕ) =
      .error .fileNotFound :=
  ((flush_query_cache_spec "up" []).2.2.2
    ⟨"up", .flt 0, .flt 1, .flt 5, [], none, none, true⟩ (some []) (.ok []) (.ok [])
    rfl rfl (by decide)
    (fun fls0 h => by cases h; rfl)).1

/-! ### Claim C10: the cache-hit short circuit -/

/-- C10: when a cache path is configured, no flush is requested and the file
for the query's key exists, `query_range` returns the deserialized contents
of that file as-is and leaves the directory unchanged; the transport
collaborator is never consulted (the result is the same for every `tr`),
and any other invocation with the same query text — different start, end,
step, labels, timeout or sort, as long as its argument conversions
succeed — returns the identical table. -/
theorem cache_hit_ignores_window {κ : Type} [LinearOrder κ]
    (fls : List (String × Frame)) (fr : Frame) (a a2 : QRArgs κ)
    (tr tr2 : Except Err (List SeriesM))
    (hf : a.flushCache = false) (hf2 : a2.flushCache = false)
    (hq : a2.query = a.query)
    (hv : validArgs a) (hv2 : validArgs a2)
    (hhit : lookupFile (cacheFile a.query) fls = some fr) :
    queryRange true (some fls) tr a = .ok (fr, some fls) ∧
    queryRange true (some fls) tr2 a2 = queryRange true (some fls) tr a := by
  have h1 := queryRange_hit a fls fr tr hf hv hhit
  have hhit2 : lookupFile (cacheFile a2.query) fls = some fr := by rw [hq]; exact hhit
  have h2 := queryRange_hit a2 fls fr tr2 hf2 hv2 hhit2
  exact ⟨h1, h2.trans h1.symm⟩

/-- C10 witness: a one-file cache directory holding a table under the key of
`up`; a hit returns that table unchanged for a concrete invocation. -/
theorem cache_hit_ignores_window_witness :
    queryRange true (some [(cacheFile "up", ⟨["a"], [[some "1"]], [[some 1]], [0]⟩)])
      (.ok []) (⟨"up", .flt 0, .flt 1, .flt 5, [], none, none, false⟩ : QRArgs ℕ) =
      .ok (⟨["a"], [[some "1"]], [[some 1]], [0]⟩,
        some [(cacheFile "up", ⟨["a"], [[some "1"]], [[some 1]], [0]⟩)]) :=
  (cache_hit_ignores_window
    [(cacheFile "up", ⟨["a"], [[some "1"]], [[some 1]], [0]⟩)]
    ⟨["a"], [[some "1"]], [[some 1]], [0]⟩
    ⟨"up", .flt 0, .flt 1, .flt 5, [], none, none, false⟩
    ⟨"up", .flt 9, .flt 99, .flt 1, [("x", "y")], none, none, false⟩
    (.ok []) (.ok [])
    rfl rfl rfl (by decide) (by decide)
    (by
      unfold lookupFile
      rw [List.find?_cons_of_pos _ (by simp)]
      rfl)).1

/-! ### The duration grammar and the scanner -/

/-- One well-formed `<integer><unit>` token: a nonempty run of decimal
digits plus a unit. -/
def goodTok (p : List Char × DUnit) : Prop :=
  p.1 ≠ [] ∧ ∀ c ∈ p.1, c.isDigit = true

instance (p : List Char × DUnit) : Decidable (goodTok p) := by
  unfold goodTok
  infer_instance

/-- The concatenated text of a token list. -/
def renderToks (ps : List (List Char × DUnit)) : List Char :=
  (ps.map (fun p => p.1 ++ unitChars p.2)).flatten

/-- The summed value of a token list: `int(num) * multiplier` per token. -/
def valToks (ps : List (List Char × DUnit)) : ℚ :=
  (ps.map (fun p => (digitsVal p.1 : ℚ) * unitMult p.2)).sum

theorem renderToks_cons (p : List Char × DUnit) (ps : List (List Char × DUnit)) :
    renderToks (p :: ps) = p.1 ++ (unitChars p.2 ++ renderToks ps) := by
  unfold renderToks
  rw [List.map_cons, List.flatten_cons, List.append_assoc]

theorem valToks_cons (p : List Char × DUnit) (ps : List (List Char × DUnit)) :
    valToks (p :: ps) = (digitsVal p.1 : ℚ) * unitMult p.2 + valToks ps := by
  unfold valToks
  rw [List.map_cons, List.sum_cons]

theorem unitChars_ne_nil (u : DUnit) : unitChars u ≠ [] := by
  cases u <;> simp [unitChars]

theorem unitChars_head_not_digit (u : DUnit) :
    ∀ c rest, unitChars u = c :: rest → c.isDigit = false := by
  cases u <;> (intro c rest h; cases h; decide)

/-- Splitting a digits-then-non-digit list with `takeWhile`/`dropWhile`. -/
theorem takeWhile_digits_append (ds rest : List Char)
    (hds : ∀ c ∈ ds, c.isDigit = true)
    (hrest : ∀ c rest2, rest = c :: rest2 → c.isDigit = false) :
    (ds ++ rest).takeWhile Char.isDigit = ds ∧
    (ds ++ rest).dropWhile Char.isDigit = rest := by
  induction ds with
  | nil =>
    simp only [List.nil_append]
    cases rest with
    | nil => exact ⟨rfl, rfl⟩
    | cons c rest2 =>
      have hc := hrest c rest2 rfl
      rw [List.takeWhile_cons_of_neg (by simp [hc]),
        List.dropWhile_cons_of_neg (by simp [hc])]
      exact ⟨rfl, rfl⟩
  | cons d ds2 ih =>
    have hd : d.isDigit = true := hds d (List.mem_cons_self _ _)
    obtain ⟨ih1, ih2⟩ := ih (fun c hc => hds c (List.mem_cons_of_mem _ hc))
    rw [List.cons_append, List.takeWhile_cons_of_pos (by simp [hd]),
      List.dropWhile_cons_of_pos (by simp [hd]), ih1, ih2]
    exact ⟨rfl, rfl⟩

/-- `parseUnit` consumed exactly the unit characters. -/
theorem parseUnit_eq_some {cs : List Char} {u : DUnit} {rest2 : List Char}
    (h : parseUnit cs = some (u, rest2)) : cs = unitChars u ++ rest2 := by
  cases cs with
  | nil => cases h
  | cons c rest =>
    simp only [parseUnit] at h
    by_cases hm : c = 'm'
    · rw [if_pos hm] at h
      subst hm
      cases rest with
      | nil =>
        dsimp only at h
        injection h with h2
        injection h2 with hu hr
        subst hu
        subst hr
        rfl
      | cons c2 rest3 =>
        dsimp only at h
        by_cases hs : c2 = 's'
        · rw [if_pos hs] at h
          subst hs
          injection h with h2
          injection h2 with hu hr
          subst hu
          subst hr
          rfl
        · rw [if_neg hs] at h
          injection h with h2
          injection h2 with hu hr
          subst hu
          subst hr
          rfl
    · rw [if_neg hm] at h
      by_cases h1 : c = 's' <;> [skip; by_cases h2 : c = 'h'] <;>
        [skip; skip; by_cases h3 : c = 'd'] <;>
        [skip; skip; skip; by_cases h4 : c = 'w'] <;>
        [skip; skip; skip; skip; by_cases h5 : c = 'y']
      all_goals simp_all [parseUnit]
      all_goals (obtain ⟨hu, hr⟩ := h; subst hu; subst hr; rfl)

/-- `parseUnit` recognizes a unit prefix when what follows is empty or
starts with a digit (which rules the `m`-vs-`ms` ambiguity out). -/
theorem parseUnit_prepend (u : DUnit) (rest : List Char)
    (hrest : rest = [] ∨ ∃ c rest2, rest = c :: rest2 ∧ c.isDigit = true) :
    parseUnit (unitChars u ++ rest) = some (u, rest) := by
  cases u
  case ms => rfl
  case m =>
    show parseUnit ('m' :: rest) = some (.m, rest)
    simp only [parseUnit, if_true]
    rcases hrest with h | ⟨c, rest2, hr, hc⟩
    · subst h
      rfl
    · subst hr
      dsimp only
      rw [if_neg (by
        intro hcs
        subst hcs
        exact absurd hc (by decide))]
  all_goals
    simp [parseUnit, unitChars]

theorem scanDur_error {fuel : ℕ} :
    ∀ {cs : List Char} {e : Err}, scanDur fuel cs = .error e →
      e = .invalidDurationFormat := by
  induction fuel with
  | zero =>
    intro cs e h
    unfold scanDur at h
    injection h with h2
    exact h2.symm
  | succ fuel ih =>
    intro cs e h
    unfold scanDur at h
    by_cases hds : (cs.takeWhile Char.isDigit).isEmpty
    · rw [if_pos hds] at h
      injection h with h2
      exact h2.symm
    · rw [if_neg hds] at h
      cases hpu : parseUnit (cs.dropWhile Char.isDigit) with
      | none =>
        rw [hpu] at h
        injection h with h2
        exact h2.symm
      | some ur =>
        rw [hpu] at h
        obtain ⟨u, rest2⟩ := ur
        dsimp only at h
        by_cases hr2 : rest2.isEmpty
        · rw [if_pos hr2] at h
          cases h
        · rw [if_neg hr2] at h
          cases hrec : scanDur fuel rest2 with
          | error e2 =>
            rw [hrec] at h
            injection h with h2
            subst h2
            exact ih hrec
          | ok v2 =>
            rw [hrec] at h
            cases h

/-- Soundness of the scanner: a successful scan exhibits a token list. -/
theorem scanDur_sound {fuel : ℕ} :
    ∀ {cs : List Char} {v : ℚ}, scanDur fuel cs = .ok v →
      ∃ ps, ps ≠ [] ∧ (∀ p ∈ ps, goodTok p) ∧ renderToks ps = cs ∧
        valToks ps = v := by
  induction fuel with
  | zero => intro cs v h; cases h
  | succ fuel ih =>
    intro cs v h
    unfold scanDur at h
    by_cases hds : (cs.takeWhile Char.isDigit).isEmpty
    · rw [if_pos hds] at h
      cases h
    · rw [if_neg hds] at h
      cases hpu : parseUnit (cs.dropWhile Char.isDigit) with
      | none => rw [hpu] at h; cases h
      | some ur =>
        rw [hpu] at h
        obtain ⟨u, rest2⟩ := ur
        dsimp only at h
        have hsplit : cs.takeWhile Char.isDigit ++ cs.dropWhile Char.isDigit = cs :=
          List.takeWhile_append_dropWhile _ _
        have hdig : ∀ c ∈ cs.takeWhile Char.isDigit, c.isDigit = true :=
          fun c hc => List.mem_takeWhile_imp hc
        have hne : cs.takeWhile Char.isDigit ≠ [] := by
          simpa [List.isEmpty_iff] using hds
        have hrest : cs.dropWhile Char.isDigit = unitChars u ++ rest2 :=
          parseUnit_eq_some hpu
        by_cases hr2 : rest2.isEmpty
        · rw [if_pos hr2] at h
          injection h with h2
          refine ⟨[(cs.takeWhile Char.isDigit, u)], by simp, ?_, ?_, ?_⟩
          · intro p hp
            rw [List.mem_singleton] at hp
            subst hp
            exact ⟨hne, hdig⟩
          · rw [renderToks_cons]
            show cs.takeWhile Char.isDigit ++ (unitChars u ++ renderToks []) = cs
            have hr0 : rest2 = [] := by simpa [List.isEmpty_iff] using hr2
            rw [hr0] at hrest
            rw [hrest] at hsplit
            simpa [renderToks] using hsplit
          · rw [← h2]
            unfold valToks
            simp
        · rw [if_neg hr2] at h
          cases hrec : scanDur fuel rest2 with
          | error e2 => rw [hrec] at h; cases h
          | ok v2 =>
            rw [hrec] at h
            injection h with h2
            obtain ⟨ps2, hps2ne, hps2good, hps2render, hps2val⟩ := ih hrec
            refine ⟨(cs.takeWhile Char.isDigit, u) :: ps2, by simp, ?_, ?_, ?_⟩
            · intro p hp
              rcases List.mem_cons.mp hp with hp | hp
              · subst hp
                exact ⟨hne, hdig⟩
              · exact hps2good p hp
            · rw [renderToks_cons]
              show cs.takeWhile Char.isDigit ++ (unitChars u ++ renderToks ps2) = cs
              rw [hps2render, ← hrest]
              exact hsplit
            · rw [valToks_cons, hps2val, ← h2]

/-- Completeness of the scanner: every well-formed token list scans to its
summed value. -/
theorem scanDur_complete :
    ∀ (ps : List (List Char × DUnit)) (fuel : ℕ), ps ≠ [] →
      (∀ p ∈ ps, goodTok p) → (renderToks ps).length < fuel →
      scanDur fuel (renderToks ps) = .ok (valToks ps) := by
  intro ps
  induction ps with
  | nil => intro fuel h; exact absurd rfl h
  | cons p tail ih =>
    intro fuel _ hgood hlen
    obtain ⟨hp1, hpdig⟩ := hgood p (List.mem_cons_self _ _)
    cases fuel with
    | zero => exact absurd hlen (by omega)
    | succ fuel =>
      have hrender := renderToks_cons p tail
      have hreststarts : renderToks tail = [] ∨
          ∃ c rest2, renderToks tail = c :: rest2 ∧ c.isDigit = true := by
        cases htail : tail with
        | nil => left; rfl
        | cons p2 t2 =>
          right
          obtain ⟨hp21, hp2dig⟩ := hgood p2 (by rw [htail]; simp)
          rw [renderToks_cons]
          cases hp2v : p2.1 with
          | nil => exact absurd hp2v hp21
          | cons c cs2 =>
            exact ⟨c, cs2 ++ (unitChars p2.2 ++ renderToks t2), by simp,
              hp2dig c (by rw [hp2v]; simp)⟩
      have hunitrest : ∀ c rest2, unitChars p.2 ++ renderToks tail = c :: rest2 →
          c.isDigit = false := by
        intro c rest2 hc
        cases hu : unitChars p.2 with
        | nil => exact absurd hu (unitChars_ne_nil p.2)
        | cons uc urest =>
          rw [hu] at hc
          injection hc with hc1 _
          subst hc1
          exact unitChars_head_not_digit p.2 uc urest hu
      obtain ⟨htake, hdrop⟩ := takeWhile_digits_append p.1
        (unitChars p.2 ++ renderToks tail) hpdig hunitrest
      unfold scanDur
      rw [hrender, htake, hdrop, if_neg (by simpa [List.isEmpty_iff] using hp1),
        parseUnit_prepend p.2 (renderToks tail) hreststarts]
      dsimp only
      cases tail with
      | nil =>
        rw [if_pos (show (renderToks ([] : List (List Char × DUnit))).isEmpty = true
          from rfl)]
        rw [valToks_cons]
        simp [valToks]
      | cons p2 t2 =>
        have htne : renderToks (p2 :: t2) ≠ [] := by
          rw [renderToks_cons]
          obtain ⟨hp21, _⟩ := hgood p2 (by simp)
          intro hcontra
          rcases List.append_eq_nil.mp hcontra with ⟨h1, _⟩
          exact hp21 h1
        rw [if_neg (by simpa [List.isEmpty_iff] using htne)]
        have hlen2 : (renderToks (p2 :: t2)).length < fuel := by
          have h1 : (renderToks (p :: p2 :: t2)).length =
              p.1.length + ((unitChars p.2).length + (renderToks (p2 :: t2)).length) := by
            rw [renderToks_cons p (p2 :: t2)]
            simp [List.length_append]
          have h2 : 1 ≤ p.1.length := List.length_pos.mpr hp1
          have h3 : 1 ≤ (unitChars p.2).length := by
            cases p.2 <;> simp [unitChars]
          omega
        rw [ih fuel (by simp) (fun q hq =>
          hgood q (List.mem_cons_of_mem _ hq)) hlen2]
        dsimp only
        rw [valToks_cons p (p2 :: t2), valToks_cons p2 t2]

/-! ### Claim C7: `duration_to_s` -/

/-- The string case of `duration_to_s`, characterized by the duration
grammar: success exactly on one-or-more `<integer><unit>` tokens, with the
summed value. -/
theorem duration_str_iff (s : String) (v : ℚ) :
    duration_to_s (.strg s) = .ok v ↔
    ∃ ps, ps ≠ [] ∧ (∀ p ∈ ps, goodTok p) ∧ renderToks ps = s.data ∧
      valToks ps = v := by
  constructor
  · intro h
    exact scanDur_sound h
  · rintro ⟨ps, h1, h2, h3, h4⟩
    show parseDuration s.data = .ok v
    unfold parseDuration
    rw [← h3, ← h4]
    exact scanDur_complete ps _ h1 h2 (by omega)

theorem digitsVal_example_1 : digitsVal ['1'] = 1 := by decide

theorem digitsVal_example_30 : digitsVal ['3', '0'] = 30 := by decide

theorem digitsVal_example_2 : digitsVal ['2'] = 2 := by decide

/-- The value of a successful `Except`, with a default for the error case. -/
def okValD {β : Type} (d : β) (e : Except Err β) : β :=
  match e with
  | .ok v => v
  | .error _ => d

theorem seqSeries_ok_map {α β : Type} (g : α → Except Err β) (d : β) :
    ∀ (l : List α), (∀ x ∈ l, okB (g x) = true) →
      seqSeries g l = .ok (l.map (fun x => okValD d (g x))) := by
  intro l
  induction l with
  | nil => intro _; rfl
  | cons x xs ih =>
    intro h
    have hx := h x (List.mem_cons_self _ _)
    obtain ⟨y, hy⟩ := (okB_exists _).mp hx
    unfold seqSeries
    rw [hy, ih (fun z hz => h z (List.mem_cons_of_mem _ hz)), List.map_cons]
    show Except.ok (y :: _) = Except.ok (okValD d (g x) :: _)
    rw [hy]
    rfl

theorem seqSeries_all_ok {α β : Type} {g : α → Except Err β} :
    ∀ {l : List α} {ys : List β}, seqSeries g l = .ok ys →
      ∀ x ∈ l, okB (g x) = true := by
  intro l
  induction l with
  | nil => intro ys _ x hx; cases hx
  | cons a as ih =>
    intro ys h x hx
    unfold seqSeries at h
    cases hg : g a with
    | error e => rw [hg] at h; cases h
    | ok y =>
      rw [hg] at h
      cases hs : seqSeries g as with
      | error e => rw [hs] at h; cases h
      | ok zs =>
        rcases List.mem_cons.mp hx with hx | hx
        · subst hx
          rw [hg]
          rfl
        · exact ih hs x hx


theorem seqSeries_ok_eq {α β : Type} {g : α → Except Err β} (d : β)
    {l : List α} {ys : List β} (h : seqSeries g l = .ok ys) :
    ys = l.map (fun x => okValD d (g x)) := by
  have h2 := seqSeries_ok_map g d l (seqSeries_all_ok h)
  rw [h] at h2
  exact Except.ok.inj h2

theorem sortByKey_perm {α κ : Type} [LinearOrder κ] (key : α → κ) (l : List α) :
    (sortByKey key l).Perm l :=
  List.mergeSort_perm l _

/-- The pointwise form of the label merge: identity when no labels are
given. -/
def mergeFn (labels : Dict) (m : Dict) : Dict :=
  if labels.isEmpty then m else mergeOne labels m

theorem mergeMetricLabels_eq_map (ms : List Dict) (labels : Dict) :
    mergeMetricLabels ms labels = ms.map (mergeFn labels) := by
  unfold mergeMetricLabels mergeFn
  by_cases hl : labels.isEmpty
  · rw [if_pos hl]
    have hfn : (fun m : Dict => if labels.isEmpty = true then m
        else mergeOne labels m) = fun m => m := by
      funext m
      rw [if_pos hl]
    rw [hfn]
    simp
  · rw [if_neg hl]
    have hfn : (fun m : Dict => if labels.isEmpty = true then m
        else mergeOne labels m) = fun m => mergeOne labels m := by
      funext m
      rw [if_neg hl]
    rw [hfn]

theorem remapAll_merge_eq_map (ms : List Dict) (labels : Dict) :
    remapAll (mergeMetricLabels ms labels) =
      ms.map (fun m => remapName (mergeFn labels m)) := by
  rw [mergeMetricLabels_eq_map]
  unfold remapAll
  rw [List.map_map]
  rfl

theorem perSeriesM_fst {start step : ℚ} {n : ℕ} {t : SeriesM}
    (h : okB (perSeriesM start step n t) = true) :
    (okValD (([], []) : Dict × List (Option ℚ)) (perSeriesM start step n t)).1 =
      t.metric := by
  cases hp : perSeriesM start step n t with
  | error e => rw [hp] at h; cases h
  | ok y =>
    obtain ⟨_, _, hy⟩ := perSeriesM_ok_elim hp
    rw [hy]
    rfl

theorem matrixToNumpy_of_all_ok {start stop step : ℚ} {r : List SeriesM}
    (h : ∀ x ∈ r, okB (perSeriesM start step (gridTimes start stop step).length x)
      = true) :
    matrixToNumpy r start stop step = .ok
      (r.map (fun x => okValD (([], []) : Dict × List (Option ℚ))
        (perSeriesM start step (gridTimes start stop step).length x)),
       gridTimes start stop step) := by
  unfold matrixToNumpy
  rw [seqSeries_ok_map _ _ _ h]

/-- The materialized (metric, row) record of one series. -/
def mxVal (start stop step : ℚ) (x : SeriesM) : Dict × List (Option ℚ) :=
  okValD ([], []) (perSeriesM start step (gridTimes start stop step).length x)

/-- The composite-index tuple a series contributes, as a function of its
label set. -/
def tupleOfSeries (levels : List String) (labels : Dict) (m : Dict) :
    List (Option String) :=
  levels.map (fun lv => dGet (remapName (mergeFn labels m)) lv)

theorem tuples_eq_map {α : Type} (l : List α) (proj : α → Dict) (labels : Dict)
    (levels : List String) :
    (remapAll (mergeMetricLabels (l.map proj) labels)).map
      (fun m => levels.map (fun lv => dGet m lv)) =
    l.map (fun r => tupleOfSeries levels labels (proj r)) := by
  rw [remapAll_merge_eq_map, List.map_map, List.map_map]
  rfl

theorem frame_pairs_eq (rows : List (Dict × List (Option ℚ))) (labels : Dict)
    (levels : List String) :
    (rows.map (fun r => tupleOfSeries levels labels r.1)).zip
      (rows.map Prod.snd) =
    rows.map (fun r => (tupleOfSeries levels labels r.1, r.2)) :=
  List.zip_map' _ _ _

/-- Pre-sorting only permutes the (column key, column data) records of a
range-query table. -/
theorem toPandasMatrix_sorted {κ : Type} [LinearOrder κ] (f : Dict → κ)
    (results : List SeriesM) (start stop step : ℚ) (labels : Dict) (fr : Frame)
    (h : toPandasMatrix (κ := κ) results start stop step none labels = .ok fr) :
    ∃ fr2, toPandasMatrix results start stop step (some f) labels = .ok fr2 ∧
      fr2.levels = fr.levels ∧ fr2.times = fr.times ∧
      (fr2.colKeys.zip fr2.data).Perm (fr.colKeys.zip fr.data) := by
  unfold toPandasMatrix at h
  rw [show applySortM (none : Option (Dict → κ)) results = results from rfl] at h
  cases hmx : matrixToNumpy results start stop step with
  | error e => rw [hmx] at h; cases h
  | ok rt =>
    rw [hmx] at h
    obtain ⟨rows, times0⟩ := rt
    dsimp only at h
    cases hmi : metricIndex (rows.map Prod.fst) labels with
    | error e => rw [hmi] at h; cases h
    | ok lt =>
      rw [hmi] at h
      obtain ⟨levels, tuples⟩ := lt
      dsimp only at h
      injection h with h
      subst h
      obtain ⟨htimes0, hseq⟩ := matrixToNumpy_ok_elim hmx
      subst htimes0
      have hallok := seqSeries_all_ok hseq
      have hrows : rows = results.map (mxVal start stop step) :=
        seqSeries_ok_eq ([], []) hseq
      have hperm : (sortByKey (fun t => f t.metric) results).Perm results :=
        sortByKey_perm _ _
      have hallok2 : ∀ x ∈ sortByKey (fun t => f t.metric) results,
          okB (perSeriesM start step (gridTimes start stop step).length x) = true :=
        fun x hx => hallok x (hperm.subset hx)
      have hmx2 : matrixToNumpy (sortByKey (fun t => f t.metric) results)
          start stop step = .ok
            ((sortByKey (fun t => f t.metric) results).map (mxVal start stop step),
             gridTimes start stop step) := matrixToNumpy_of_all_ok hallok2
      have hrows2perm : ((sortByKey (fun t => f t.metric) results).map
          (mxVal start stop step)).Perm rows := by
        rw [hrows]
        exact hperm.map _
      obtain ⟨hL, hT, hne⟩ := metricIndex_ok_elim hmi
      have hlev : levelsOf (remapAll (mergeMetricLabels
          (((sortByKey (fun t => f t.metric) results).map
            (mxVal start stop step)).map Prod.fst) labels)) =
          levelsOf (remapAll (mergeMetricLabels (rows.map Prod.fst) labels)) := by
        rw [remapAll_merge_eq_map, remapAll_merge_eq_map]
        exact levelsOf_perm ((hrows2perm.map Prod.fst).map _)
      have hne2 : levelsOf (remapAll (mergeMetricLabels
          (((sortByKey (fun t => f t.metric) results).map
            (mxVal start stop step)).map Prod.fst) labels)) ≠ [] := by
        rw [hlev, ← hL]
        exact hne
      have hmi2 := metricIndex_ok_of_ne hne2
      refine ⟨⟨levels,
        ((sortByKey (fun t => f t.metric) results).map
          (mxVal start stop step)).map
            (fun r => tupleOfSeries levels labels r.1),
        ((sortByKey (fun t => f t.metric) results).map
          (mxVal start stop step)).map Prod.snd,
        gridTimes start stop step⟩, ?_, rfl, rfl, ?_⟩
      · unfold toPandasMatrix
        rw [show applySortM (some f) results =
          sortByKey (fun t => f t.metric) results from rfl, hmx2]
        dsimp only
        rw [hmi2]
        dsimp only
        rw [tuples_eq_map _ Prod.fst, hlev, ← hL]
      · dsimp only
        rw [frame_pairs_eq, hT, tuples_eq_map _ Prod.fst, frame_pairs_eq]
        exact hrows2perm.map _

/-! ### Claim C6: the sort comparator (instant path broken) -/

/-- C6 (code bug): the claim says a caller-supplied sort comparator only
permutes which row/column each series occupies and the run still succeeds,
on both paths.  The range path does behave that way: the sorted run
succeeds, keeps the levels and the time grid, and its (composite key,
column) records are a permutation of the unsorted run's (second conjunct).
But on the instant path `query` (line 97) sorts `results` — the
response-data dict returned by `_do_query` at line 93, not the series
list — so `sorted(results, key=lambda r: sort(r['metric']))` iterates the
dict's string keys and `r['metric']` raises `TypeError` for every
comparator: an instant query with any sort comparator always fails
(first conjunct). -/
theorem instant_sort_type_error {κ : Type} [LinearOrder κ] (f : Dict → κ) :
    (∀ (results : List SeriesV) (labels : Dict),
      queryInstant (κ := κ) results labels (some f) = .error .typeError) ∧
    (∀ (results : List SeriesM) (start stop step : ℚ) (labels : Dict)
        (fr : Frame),
      toPandasMatrix (κ := κ) results start stop step none labels = .ok fr →
      ∃ fr2, toPandasMatrix results start stop step (some f) labels = .ok fr2 ∧
        fr2.levels = fr.levels ∧ fr2.times = fr.times ∧
        (fr2.colKeys.zip fr2.data).Perm (fr.colKeys.zip fr.data)) :=
  ⟨fun _ _ => rfl,
   fun results start stop step labels fr h =>
     toPandasMatrix_sorted f results start stop step labels fr h⟩

/-- C6 witness: with the `job`-projection comparator, a concrete instant
query fails with the type error, while a concrete two-series range run
sorted by `job` succeeds and its (key, column) records are a permutation
of the unsorted run's. -/
theorem instant_sort_type_error_witness :
    queryInstant [⟨[("job", "b")], 1⟩] []
      (some (fun m => (dGet m "job").getD "")) = .error .typeError ∧
    ∃ fr2, toPandasMatrix
        [⟨[("job", "b")], [(0, 1)]⟩, ⟨[("job", "a")], [(0, 2)]⟩] 0 0 1
        (some (fun m => (dGet m "job").getD "")) [] = .ok fr2 ∧
      fr2.levels = (⟨["job"], [[some "b"], [some "a"]],
        [[some 1], [some 2]], [0]⟩ : Frame).levels ∧
      fr2.times = (⟨["job"], [[some "b"], [some "a"]],
        [[some 1], [some 2]], [0]⟩ : Frame).times ∧
      (fr2.colKeys.zip fr2.data).Perm
        ((⟨["job"], [[some "b"], [some "a"]],
          [[some 1], [some 2]], [0]⟩ : Frame).colKeys.zip
         (⟨["job"], [[some "b"], [some "a"]],
          [[some 1], [some 2]], [0]⟩ : Frame).data) :=
  ⟨(instant_sort_type_error (κ := String)
      (fun m => (dGet m "job").getD "")).1 [⟨[("job", "b")], 1⟩] [],
   (instant_sort_type_error (κ := String)
      (fun m => (dGet m "job").getD "")).2
     [⟨[("job", "b")], [(0, 1)]⟩, ⟨[("job", "a")], [(0, 2)]⟩] 0 0 1 []
     ⟨["job"], [[some "b"], [some "a"]], [[some 1], [some 2]], [0]⟩
     (by with_unfolding_all decide)⟩
